import Mathlib

/-!
Verification of the `undercomplicate` data-retrieval library.

The development shallowly embeds the library's JavaScript sources:

* `src/esm/lru_cache.js` — a bounded LRU cache built from a key → node map plus a
  doubly-linked recency chain.  Node objects live on the JS heap; we model the heap
  as an arena (`List (LLNode K V M)`) addressed by allocation index, and pointers as
  `Option Nat`.  All pointer surgery in `add` / `_remove` / `get` follows the source
  statement by statement.
* `src/esm/requests.js` — declaration parsing (a faithful model of the exec of the
  regular expression used by `_parse_declaration`, including its unanchored second
  alternative and lazy group), graph construction, topological ordering and the
  request scheduler `getLinkedData`.  The third-party `@hapi/topo` sorter is not part
  of this repository; it is modelled from the spec (Kahn's algorithm with
  earliest-declaration tie-break).
* `src/esm/adapter.js` — `BaseAdapter.getData`, the memoizing fetch protocol, with
  the template-method hooks supplied as function parameters and futures represented
  by their settled outcomes (the scheduling model is single-threaded and
  cooperative, so a settled-outcome semantics is adequate for the cache-state and
  result claims considered here).
-/

namespace Undercomplicate

/-! ## Generic list helpers (JS `Map` and heap-arena primitives) -/

variable {α β : Type}

/-- Replace the element at index `i` (no-op when out of bounds). Models an in-place
field assignment on a JS heap object held in the arena. -/
def modIdx (l : List α) (i : Nat) (f : α → α) : List α :=
  match l[i]? with
  | some x => l.set i (f x)
  | none => l

/-- Association-list lookup, modelling `Map.prototype.get`. -/
def alookup [DecidableEq α] : List (α × β) → α → Option β
  | [], _ => none
  | p :: rest, k => if p.1 = k then some p.2 else alookup rest k

/-- `Map.prototype.set`: overwrite in place when the key exists (JS `Map` keeps the
original insertion position), append otherwise. -/
def mapSet [DecidableEq α] (m : List (α × β)) (k : α) (v : β) : List (α × β) :=
  match alookup m k with
  | some _ => m.map (fun p => if p.1 = k then (k, v) else p)
  | none => m ++ [(k, v)]

/-- `Map.prototype.delete`: drop the entry with key `k`, keeping the order of the
others.  (JS `Map` keys are unique; the recursion removes every occurrence.) -/
def mapDelete [DecidableEq α] : List (α × β) → α → List (α × β)
  | [], _ => []
  | p :: rest, k => if p.1 = k then mapDelete rest k else p :: mapDelete rest k

/-! ## `src/esm/lru_cache.js`

The cache is polymorphic over the key type `K`, the stored value type `V` and the
metadata type `M`.  JS `null` is not a distinguished element of every type, so the
few places where the source produces the literal `null` as a *value* (the return of
`get` on a miss, the default `metadata = \x7b\x7d` argument) take that element as an
explicit parameter (`nullv`, `emptyMeta`). -/

/-- `class LLNode` — one doubly-linked cache node.  `prev` / `next` are heap
references, modelled as arena indices. -/
structure LLNode (K V M : Type) where
  key : K
  value : V
  metadata : M
  prev : Option Nat
  next : Option Nat
deriving DecidableEq, Repr

/-- `class LRUCache` state.  `arena` is the JS heap restricted to the `LLNode`
objects this cache ever allocated (allocation appends; nodes are never reused, as
a garbage collector is not observable).  `store` models the JS `Map` from key to
node (by arena index); `cur_size` is the manually maintained JS number
`_cur_size` (an `Int`, since nothing in the source clamps it at 0). -/
structure LRUCache (K V M : Type) where
  max_size : Nat
  cur_size : Int
  store : List (K × Nat)
  arena : List (LLNode K V M)
  head : Option Nat
  tail : Option Nat
deriving DecidableEq, Repr

namespace LRUCache

variable {K V M : Type} [DecidableEq K]

/-- The constructor.  `new LRUCache(max_size)` throws when `max_size` is `null` or
negative; a `null` argument is subsumed by taking the capacity as an `Int` and the
error branch.  (The JS default argument is `3`.) -/
def mkCache (K V M : Type) (max_size : Int) : Except String (LRUCache K V M) :=
  if max_size < 0 then
    .error ("Cache max_size must be >= 0")
  else
    .ok { max_size := max_size.toNat, cur_size := 0, store := [], arena := [],
          head := none, tail := none }

/-- `has(key)` — membership only, never updates LRU state. -/
def has (c : LRUCache K V M) (k : K) : Bool :=
  (alookup c.store k).isSome

/-- `_remove(node)` — unlink `node` (given by its arena index) from the recency
chain and drop it from the store.  Each JS statement reads the node's fields at the
moment it executes, so the fields are re-read from the arena between the two pointer
updates. -/
def _remove (c : LRUCache K V M) (i : Nat) : LRUCache K V M :=
  match c.arena[i]? with
  | none => c
  | some node0 =>
    -- if (node.prev !== null) node.prev.next = node.next; else this._head = node.next;
    let c1 :=
      match node0.prev with
      | some p => { c with arena := modIdx c.arena p (fun n => { n with next := node0.next }) }
      | none => { c with head := node0.next }
    match c1.arena[i]? with
    | none => c1
    | some node1 =>
      -- if (node.next !== null) node.next.prev = node.prev; else this._tail = node.prev;
      let c2 :=
        match node1.next with
        | some q => { c1 with arena := modIdx c1.arena q (fun n => { n with prev := node1.prev }) }
        | none => { c1 with tail := node1.prev }
      -- this._store.delete(node.key); this._cur_size -= 1;
      { c2 with store := mapDelete c2.store node0.key, cur_size := c2.cur_size - 1 }

/-- First phase of `add`:
`const prior = this._store.get(key); if (prior) this._remove(prior);` -/
def removePrior (c : LRUCache K V M) (k : K) : LRUCache K V M :=
  match alookup c.store k with
  | some i => c._remove i
  | none => c

/-- Second phase of `add`:
`const node = new LLNode(key, value, metadata, null, this._head);`
`if (this._head) this._head.prev = node; else this._tail = node;`
`this._head = node; this._store.set(key, node);` -/
def insertAtHead (c : LRUCache K V M) (k : K) (v : V) (m : M) : LRUCache K V M :=
  let newId := c.arena.length
  let node : LLNode K V M := { key := k, value := v, metadata := m, prev := none, next := c.head }
  let c2 := { c with arena := c.arena ++ [node] }
  let c3 :=
    match c2.head with
    | some h => { c2 with arena := modIdx c2.arena h (fun n => { n with prev := some newId }) }
    | none => { c2 with tail := some newId }
  { c3 with head := some newId, store := mapSet c3.store k newId }

/-- Third phase of `add`:
`if (this._max_size >= 0 && this._cur_size >= this._max_size) {`
`  const old = this._tail; this._tail = this._tail.prev; this._remove(old); }`
(`this._max_size >= 0` always holds: the constructor rejected negative sizes). -/
def evictIfFull (c : LRUCache K V M) : LRUCache K V M :=
  if (c.max_size : Int) ≤ c.cur_size then
    match c.tail with
    | some t => ({ c with tail := (c.arena[t]?).bind (fun n => n.prev) })._remove t
    | none => c  -- unreachable: the source would dereference null here
  else c

/-- `add(key, value, metadata)` — the JS default for `metadata` is the empty object;
call sites that omit it pass it explicitly here.  The body is the composition of the
three phases above followed by `this._cur_size += 1`, mirroring the statement order
of the source. -/
def add (c : LRUCache K V M) (k : K) (v : V) (m : M) : LRUCache K V M :=
  -- if (this._max_size === 0) return;
  if c.max_size = 0 then c
  else
    let c5 := evictIfFull (insertAtHead (removePrior c k) k v m)
    { c5 with cur_size := c5.cur_size + 1 }

/-- `get(key)` — returns the stored value and promotes the entry to the head by
re-adding it (the JS call `this.add(key, cached.value)` omits the metadata argument,
so the re-insertion carries the *default* metadata `emptyMeta`).  On a miss the
source returns the JS literal `null`, supplied here as `nullv`.  The comparison
`this._head !== cached` is reference equality of heap nodes, i.e. equality of arena
indices. -/
def get (c : LRUCache K V M) (nullv : V) (emptyMeta : M) (k : K) :
    V × LRUCache K V M :=
  match alookup c.store k with
  | none => (nullv, c)
  | some i =>
    match c.arena[i]? with
    | none => (nullv, c)  -- unreachable: the store only holds live nodes
    | some node =>
      if c.head = some i then (node.value, c)
      else (node.value, c.add k node.value emptyMeta)

/-- `clear()` — reset to empty.  The old nodes become garbage; the arena (= heap)
keeps them, which is unobservable through the cache interface. -/
def clear (c : LRUCache K V M) : LRUCache K V M :=
  { c with head := none, tail := none, cur_size := 0, store := [] }

/-- The loop body of `find(callback)`, fuelled to make termination manifest (the
recency chain of any well-formed cache is finite and acyclic). -/
def findAux (c : LRUCache K V M) (p : LLNode K V M → Bool) :
    Nat → Option Nat → Option (LLNode K V M)
  | 0, _ => none
  | _, none => none
  | fuel + 1, some i =>
    match c.arena[i]? with
    | none => none
    | some node => if p node then some node else findAux c p fuel node.next

/-- `find(callback)` — linear scan from the head.  The callback here is a pure
predicate (the claims only concern non-mutating callbacks), so the source's
snapshotting of `node.next` before invoking it is immaterial. -/
def find (c : LRUCache K V M) (p : LLNode K V M → Bool) : Option (LLNode K V M) :=
  findAux c p (c.arena.length + 1) c.head

/-- Walk the recency chain from `head`, collecting arena indices (fuelled). -/
def chainAux (arena : List (LLNode K V M)) : Nat → Option Nat → List Nat
  | 0, _ => []
  | _, none => []
  | fuel + 1, some i =>
    match arena[i]? with
    | none => [i]
    | some node => i :: chainAux arena fuel node.next

/-- The list of nodes reachable by walking the recency chain from the head. -/
def chain (c : LRUCache K V M) : List Nat :=
  chainAux c.arena (c.arena.length + 1) c.head

/-! ### Well-formedness of a cache state

`segb arena p ids q = true` states that `ids` is a consistent doubly-linked segment
inside `arena`: the first node's `prev` is `p`, consecutive nodes point at each
other in both directions, and the last node's `next` is `q`. -/

/-- Doubly-linked-segment predicate over the arena. -/
def segb (arena : List (LLNode K V M)) : Option Nat → List Nat → Option Nat → Bool
  | _, [], _ => true
  | p, i :: rest, q =>
    match arena[i]? with
    | none => false
    | some node =>
      decide (node.prev = p) && decide (node.next = rest.head?.or q) &&
        segb arena (some i) rest q

/-- The key stored at arena index `i`. -/
def keyAt (arena : List (LLNode K V M)) (i : Nat) : Option K :=
  (arena[i]?).map LLNode.key

/-- The value stored at arena index `i`. -/
def valueAt (arena : List (LLNode K V M)) (i : Nat) : Option V :=
  (arena[i]?).map LLNode.value

/-- The metadata stored at arena index `i`. -/
def metaAt (arena : List (LLNode K V M)) (i : Nat) : Option M :=
  (arena[i]?).map LLNode.metadata

/-- Structural well-formedness: `ids` lists the recency chain from most- to
least-recently used, and the store is exactly the key → index map of the chain. -/
structure SInv (c : LRUCache K V M) (ids : List Nat) : Prop where
  seg_ok : segb c.arena none ids none = true
  head_ok : c.head = ids.head?
  tail_ok : c.tail = ids.getLast?
  ids_nodup : ids.Nodup
  store_sub : ∀ p ∈ c.store, p.2 ∈ ids ∧ keyAt c.arena p.2 = some p.1
  ids_sub : ∀ i ∈ ids, ∃ k, keyAt c.arena i = some k ∧ alookup c.store k = some i
  store_keys_nodup : (c.store.map Prod.fst).Nodup
  store_len : c.store.length = ids.length

/-- Full well-formedness: structure plus the counter and capacity bound. -/
structure Inv (c : LRUCache K V M) (ids : List Nat) extends SInv c ids : Prop where
  size_ok : c.cur_size = (ids.length : Int)
  bound_ok : ids.length ≤ c.max_size

/-- A cache state is well-formed when some chain listing witnesses it. -/
def WF (c : LRUCache K V M) : Prop := ∃ ids, Inv c ids

/-- The cache operations named by the claims.  `has` and `find` never modify the
cache (`has` touches nothing; `find` with a non-mutating predicate only reads), so
running them is the identity on the state; their return values are the functions
`has` and `find` themselves. -/
inductive CacheOp (K V M : Type) where
  | get (k : K)
  | add (k : K) (v : V) (m : M)
  | clear
  | has (k : K)
  | find (p : LLNode K V M → Bool)

/-- One step of a client session.  `nullv` and `em` are the ambient JS literals
`null` and the empty object (the defaults used by `get`'s internal re-insertion). -/
def runOp (nullv : V) (em : M) (c : LRUCache K V M) : CacheOp K V M → LRUCache K V M
  | .get k => (c.get nullv em k).2
  | .add k v m => c.add k v m
  | .clear => c.clear
  | .has _ => c
  | .find _ => c

/-- Run a whole session from a starting state. -/
def runOps (nullv : V) (em : M) (c : LRUCache K V M) (ops : List (CacheOp K V M)) :
    LRUCache K V M :=
  ops.foldl (runOp nullv em) c

/-- Observation: the metadata currently stored under key `k`. -/
def metadataOf (c : LRUCache K V M) (k : K) : Option M :=
  (alookup c.store k).bind (fun i => metaAt c.arena i)

/-- Observation: the value currently stored under key `k`. -/
def valueOf (c : LRUCache K V M) (k : K) : Option V :=
  (alookup c.store k).bind (fun i => valueAt c.arena i)

end LRUCache

/-- The state `new LRUCache(2)` produces (over `Nat` keys, values and metadata). -/
def demoStart : LRUCache Nat Nat Nat :=
  { max_size := 2, cur_size := 0, store := [], arena := [], head := none, tail := none }

/-- `demoStart` after `add(1, 10, 7)` and `add(2, 20, 0)`: full, key 1 least recent. -/
def demoFull : LRUCache Nat Nat Nat :=
  (demoStart.add 1 10 7).add 2 20 0

/-- The state `new LRUCache(0)` produces (caching disabled). -/
def zeroStart : LRUCache Nat Nat Nat :=
  { max_size := 0, cur_size := 0, store := [], arena := [], head := none, tail := none }

/-- The state `new LRUCache(3)` produces, for values that may be the JS literal
`null` (modelled as `Option Nat` with `none` for `null`). -/
def nullStart : LRUCache Nat (Option Nat) Nat :=
  { max_size := 3, cur_size := 0, store := [], arena := [], head := none, tail := none }

/-! ## `src/esm/adapter.js` — `BaseAdapter.getData`

The cache stores the raw promise returned by `_performRequest`; the claims
concern settled executions, so a future is its settled outcome
`Except String V`.  Hooks may read and mutate JS objects in place; the
embedding makes the heap a caller-chosen type `H` threaded explicitly.  A
sequential pair of `getData` calls runs the second call on the state produced
by the first, exactly as the repository's tests await one call before issuing
the next.  The Boolean in the result records whether `_performRequest` ran
during the call. -/

/-- The per-call ingredients of a `getData` run: the computed cache key
(`_getCacheKey(options)` of the call's fixed options object), the
`options._cache_meta` annotation, the constructor flags and the hook
implementations.  `nullFuture` stands for the JS `null` that `LRUCache.get`
returns on a miss; every theorem below holds for an arbitrary `nullFuture`,
which shows the miss value is never consumed. -/
structure AdapterHooks (K V M H : Type) where
  key : K
  cacheMeta : M
  emptyMeta : M
  nullFuture : Except String V
  enableCache : Bool
  validateFields : Bool
  performRequest : H → Except String V × H
  normalizeResponse : V → H → V × H
  annotateRecords : V → H → V × H
  validateResponseFields : V → H → Except String Unit
  postProcessResponse : V → H → V × H

/-- The state one `getData` call reads and writes: the adapter's cache and the
heap of JS objects the hooks mutate. -/
structure AdapterState (K V M H : Type) where
  cache : LRUCache K (Except String V) M
  heap : H

/-- The `.then` chain attached to the (possibly cached) request future: a
rejected future skips every handler and propagates its rejection; a fulfilled
one runs normalize, annotate, the optional field validation (whose throw
rejects the chain), and post-processing. -/
def thenChain {K V M H : Type} (hooks : AdapterHooks K V M H)
    (st : AdapterState K V M H) (result : Except String V) (performed : Bool) :
    Except String V × AdapterState K V M H × Bool :=
  match result with
  | .error e => (.error e, st, performed)
  | .ok v =>
    let r1 := hooks.normalizeResponse v st.heap
    let r2 := hooks.annotateRecords r1.1 r1.2
    if hooks.validateFields then
      match hooks.validateResponseFields r2.1 r2.2 with
      | .error e => (.error e, { st with heap := r2.2 }, performed)
      | .ok _ =>
        let r3 := hooks.postProcessResponse r2.1 r2.2
        (.ok r3.1, { st with heap := r3.2 }, performed)
    else
      let r3 := hooks.postProcessResponse r2.1 r2.2
      (.ok r3.1, { st with heap := r3.2 }, performed)

/-- `BaseAdapter.getData`: serve the raw future from the cache when enabled and
present (promoting the entry), otherwise perform the request and cache the raw
future under the key with the `_cache_meta` annotation — with no removal on
failure and no copying of the settled value — then attach the `.then` chain. -/
def getData {K V M H : Type} [DecidableEq K] (hooks : AdapterHooks K V M H)
    (st : AdapterState K V M H) :
    Except String V × AdapterState K V M H × Bool :=
  if hooks.enableCache && st.cache.has hooks.key then
    let r := st.cache.get hooks.nullFuture hooks.emptyMeta hooks.key
    thenChain hooks { st with cache := r.2 } r.1 false
  else
    let r := hooks.performRequest st.heap
    let cache2 := st.cache.add hooks.key r.1 hooks.cacheMeta
    thenChain hooks { cache := cache2, heap := r.2 } r.1 true

/-- An adapter whose fetch always fails (heap-free): distils the failure path of
any `_performRequest` whose promise rejects. -/
def failHooks : AdapterHooks Nat Nat Unit Unit :=
  { key := 7
    cacheMeta := ()
    emptyMeta := ()
    nullFuture := .error "null"
    enableCache := true
    validateFields := false
    performRequest := fun h => (.error "boom", h)
    normalizeResponse := fun v h => (v, h)
    annotateRecords := fun v h => (v, h)
    validateResponseFields := fun _ _ => .ok ()
    postProcessResponse := fun v h => (v, h) }

/-- A fresh failing adapter: empty default-size cache, trivial heap. -/
def failSt0 : AdapterState Nat Nat Unit Unit :=
  { cache := { max_size := 3, cur_size := 0, store := [], arena := [],
               head := none, tail := none },
    heap := () }

/-- A failing-adapter state whose cache already holds the settled failed future
under the key — exactly the state a first failing `getData` call leaves behind. -/
def failSt1 : AdapterState Nat Nat Unit Unit :=
  { cache := { max_size := 3, cur_size := 1, store := [(7, 0)],
               arena := [{ key := 7, value := Except.error "boom", metadata := (),
                           prev := none, next := none }],
               head := some 0, tail := some 0 },
    heap := () }

/-! ### The repository's own cloning test (`TestCacheQuirks`, adapter tests)

Records are JS objects mutated in place; the heap is a list of records addressed
by index, and the fetched value is an array of record references. -/

/-- `TestCacheQuirks._performRequest`: resolve to a fresh one-record array
`[\x7b a: 1, b: 2, c: 3 \x7d]`, allocated on the heap. -/
def quirksPerform (h : List (List (String × Int))) :
    Except String (List Nat) × List (List (String × Int)) :=
  (.ok [h.length], h ++ [[("a", 1), ("b", 2), ("c", 3)]])

/-- `TestCacheQuirks._annotateRecords`: `records.forEach((row) => row.a += 1)`
mutates each referenced record in place.  (Every record of this adapter carries
an `a` property, so the missing-property arm is never taken.) -/
def quirksAnnotate (v : List Nat) (h : List (List (String × Int))) :
    List Nat × List (List (String × Int)) :=
  (v, v.foldl
    (fun acc r => modIdx acc r
      (fun row => match alookup row "a" with
        | some x => mapSet row "a" (x + 1)
        | none => row))
    h)

/-- The hooks of the repository's `TestCacheQuirks` adapter under
`getData(\x7b somevalue: 1 \x7d)`: default constructor (cache enabled, no field
validation), `_getCacheKey` returns `options.somevalue`, normalize and
post-process are identities on the records array. -/
def quirksHooks : AdapterHooks Int (List Nat) Unit (List (List (String × Int))) :=
  { key := 1
    cacheMeta := ()
    emptyMeta := ()
    nullFuture := .error "null"
    enableCache := true
    validateFields := false
    performRequest := quirksPerform
    normalizeResponse := fun v h => (v, h)
    annotateRecords := quirksAnnotate
    validateResponseFields := fun _ _ => .ok ()
    postProcessResponse := fun v h => (v, h) }

/-- Dereference an array of record references against the heap — what a caller
(or the test's `assert.deepEqual`) actually observes. -/
def derefRecords (h : List (List (String × Int))) (v : Except String (List Nat)) :
    Except String (List (List (String × Int))) :=
  v.map (fun refs => refs.map (fun r => (h[r]?).getD []))

/-- A fresh `TestCacheQuirks` adapter: empty default-size cache and empty heap. -/
def quirksSt0 : AdapterState Int (List Nat) Unit (List (List (String × Int))) :=
  { cache := { max_size := 3, cur_size := 0, store := [], arena := [],
               head := none, tail := none },
    heap := [] }

/-! ## `src/esm/requests.js`

### `_parse_declaration`

The source parses one declaration with
`/^(?<name_alone>\w+)$|((?<name_deps>\w+)+\(\s*(?<deps>[^)]+?)\s*\))/.exec(spec)`.
The first alternative is anchored to the whole string; the second is **not**
anchored, so the engine scans for its leftmost occurrence anywhere in the input.
The model below reproduces that scan, the greedy/lazy group semantics, and
`deps.split(/\s*,\s*/)`. -/

/-- `\w` of a JS regex: ASCII letters, digits and underscore. -/
def isWordChar (c : Char) : Bool :=
  ('a' ≤ c && c ≤ 'z') || ('A' ≤ c && c ≤ 'Z') || ('0' ≤ c && c ≤ '9') || c == '_'

/-- `\s` of a JS regex, restricted to ASCII whitespace. -/
def isSpaceChar (c : Char) : Bool :=
  c == ' ' || c == '\t' || c == '\n' || c == '\r' || c == '\x0b' || c == '\x0c'

/-- Drop leading whitespace. -/
def ltrim (s : List Char) : List Char := s.dropWhile isSpaceChar

/-- Drop trailing whitespace. -/
def rtrim (s : List Char) : List Char := (s.reverse.dropWhile isSpaceChar).reverse

/-- Drop whitespace on both sides. -/
def trimWS (s : List Char) : List Char := rtrim (ltrim s)

/-- Split at commas; the separators are dropped, empty pieces are kept
(`"".split` gives `[""]`). -/
def splitComma : List Char → List (List Char)
  | [] => [[]]
  | c :: rest =>
    if c = ',' then [] :: splitComma rest
    else
      match splitComma rest with
      | [] => [[c]]  -- unreachable: splitComma never returns []
      | p :: ps => (c :: p) :: ps

/-- The non-first pieces of `split(/\s*,\s*/)`: each loses its leading whitespace
(eaten by the `\s*` after the comma before it) and, when it is not the last piece,
its trailing whitespace (eaten by the greedy `\s*` before the comma after it). -/
def adjTail : List (List Char) → List (List Char)
  | [] => []
  | [p] => [ltrim p]
  | p :: rest => ltrim (rtrim p) :: adjTail rest

/-- `deps.split(/\s*,\s*/)` of the source: split at commas, with the whitespace
adjacent to each comma consumed by the separator. -/
def jsSplitCommaWS (s : List Char) : List (List Char) :=
  match splitComma s with
  | [] => []
  | [p] => [p]
  | p :: rest => rtrim p :: adjTail rest

/-- The value of the lazy group `deps` in `\(\s*(?<deps>[^)]+?)\s*\)` when the
parenthesized content is `content`: the leading `\s*` is greedy and the group is
lazy, so the group is the trimmed content when it has a non-space character, and
just the last character when the content is all whitespace (the greedy `\s*`
backtracks by exactly one character so that the `+?` can match). -/
def depsGroup (content : List Char) : List Char :=
  if content.any (fun ch => !isSpaceChar ch) then trimWS content
  else content.drop (content.length - 1)

/-- Try the second alternative `(?<name_deps>\w+)+\(\s*(?<deps>[^)]+?)\s*\)` at
the current position: a nonempty run of word characters directly followed by `(`,
then at least one character before the first `)`. -/
def matchAlt2At (s : List Char) : Option (List Char × List Char) :=
  let w := s.takeWhile isWordChar
  if w.isEmpty then none
  else
    match s.drop w.length with
    | '(' :: r =>
      let content := r.takeWhile (fun ch => !(ch == ')'))
      if content.length < r.length && !content.isEmpty then
        some (w, depsGroup content)
      else none
    | _ => none

/-- The engine scans positions left to right for the unanchored alternative and
returns the leftmost match. -/
def scanAlt2 : List Char → Option (List Char × List Char)
  | [] => none
  | c :: rest =>
    match matchAlt2At (c :: rest) with
    | some m => some m
    | none => scanAlt2 rest

/-- `_parse_declaration(spec)` — the regex exec, the group handling and the
`deps.split(/\s*,\s*/)` of the source. -/
def _parse_declaration (spec : String) : Except String (String × List String) :=
  let s := spec.data
  if !s.isEmpty && s.all isWordChar then
    .ok (spec, [])
  else
    match scanAlt2 s with
    | some (name, deps) =>
      .ok (String.mk name, (jsSplitCommaWS deps).map String.mk)
    | none => .error ("Unable to parse dependency specification: " ++ spec)

/-- `NAME` of the spec grammar: a nonempty `\w+` token. -/
def isNameB (s : List Char) : Bool := !s.isEmpty && s.all isWordChar

/-- Decision procedure for the spec's declaration grammar (`NAME` or
`NAME(NAME (, NAME)*)`, whitespace permitted around prerequisite names), written
from the spec's words for comparison against the code's parser. -/
def specGrammarMatch (s : List Char) : Bool :=
  isNameB s ||
  (let w := s.takeWhile isWordChar
   !w.isEmpty &&
     match s.drop w.length with
     | '(' :: r =>
       match r.reverse with
       | ')' :: midrev => (splitComma midrev.reverse).all (fun p => isNameB (trimWS p))
       | _ => false
     | _ => false)

/-- The comma-joined form of a piece list: the pieces in order with a single `,`
between adjacent pieces and no other characters added — the inverse of
`splitComma`. -/
def glue : List (List Char) → List Char
  | [] => []
  | [p] => p
  | p :: ps => p ++ ',' :: glue ps

/-! ### `getLinkedData` -/

/-- JS values, as far as the scheduler's claims observe them.  Objects are ordered
own-property lists; `vundef` is `undefined`. -/
inductive JsVal where
  | vstr : String → JsVal
  | vnum : Int → JsVal
  | vlist : List JsVal → JsVal
  | vobj : List (String × JsVal) → JsVal
  | vundef : JsVal

/-- Observation: the `_provider_name` property of an options object, as a string. -/
def markerOf (v : JsVal) : Option String :=
  match v with
  | .vobj o =>
    match alookup o ("_provider_name") with
    | some (.vstr s) => some s
    | _ => none
  | _ => none

/-- `Object.assign(target, src)`: copy the source's own properties onto the target
in order (an existing key keeps its position, a new one is appended — the same
semantics as the `Map` model's `mapSet`). -/
def objAssign (target src : List (String × JsVal)) : List (String × JsVal) :=
  src.foldl (fun acc p => mapSet acc p.1 p.2) target

/-- The request options built for node `name`:
`Object.assign(\x7b _provider_name: name \x7d, shared_options)` — note that the
shared options are merged *onto* the marker, so a shared `_provider_name`
overwrites it. -/
def mkOptions (name : String) (shared : List (String × JsVal)) : List (String × JsVal) :=
  objAssign [("_provider_name", JsVal.vstr name)] shared

/-- A provider as the scheduler consumes it: `getData(options, ...prior)`.  The
claims concern successful, settled executions, so a provider is a pure function
from its options and its prerequisites' settled values to its settled value. -/
def Provider : Type := List (String × JsVal) → List JsVal → JsVal

/-- A provider that returns the options object it received — used to observe
exactly what options the scheduler passes. -/
def echoProvider : Provider := fun opts _ => JsVal.vobj opts

/-- `new Map(parsed)`: later pairs overwrite the value of an existing key, which
keeps its original position. -/
def buildDag (parsed : List (String × List String)) : List (String × List String) :=
  parsed.foldl (fun acc p => mapSet acc p.1 p.2) []

/-- Modelled from the spec: the third-party `@hapi/topo` `Sorter` used by
`getLinkedData` is not part of this repository's sources.  Spec sections 4.1 and 9
require Kahn's algorithm — repeatedly select, among the nodes whose declared
prerequisites are all already placed, the one declared earliest — failing on a
cycle; a prerequisite that names no declared node imposes no constraint.
`pickReady` finds the earliest ready entry. -/
def pickReady (keys placed : List String) :
    List (String × List String) → Option (String × List String)
  | [] => none
  | e :: rest =>
    if e.2.all (fun d => !(decide (d ∈ keys)) || decide (d ∈ placed)) then some e
    else pickReady keys placed rest

/-- Modelled from the spec (see `pickReady`): the sorting loop, fuelled by the
number of entries. -/
def kahnGo (keys : List String) :
    Nat → List (String × List String) → List String → Except String (List String)
  | _, [], placed => .ok placed
  | 0, e :: _, _ =>
    .error ("Invalid or possible circular dependency specification for: " ++ e.1)
  | fuel + 1, remaining, placed =>
    match pickReady keys placed remaining with
    | none =>
      match remaining with
      | [] => .ok placed
      | e :: _ =>
        .error ("Invalid or possible circular dependency specification for: " ++ e.1)
    | some e => kahnGo keys fuel (remaining.filter (fun p => p.1 ≠ e.1)) (placed ++ [e.1])

/-- Modelled from the spec (see `pickReady`): the deterministic topological order
of a dependency graph, or a cycle error. -/
def toposort (dag : List (String × List String)) : Except String (List String) :=
  kahnGo (dag.map Prod.fst) dag.length dag []

/-- The scheduling loop of `getLinkedData`, processed in topological order.  Each
node's settled value is its provider applied to the per-node options and its
declared prerequisites' settled values; a prerequisite that was never scheduled
reads as JS `undefined`, exactly as `responses.get(name)` would.  The fold both
performs the provider-existence check and accumulates the `responses` map in
insertion order.  (The source creates one promise per node, gated on its
prerequisites' promises; on a successful run each promise settles to exactly this
value, so the single-threaded settled semantics coincides with the promise
graph.) -/
def schedule (entities : List (String × Provider)) (dag : List (String × List String))
    (shared : List (String × JsVal)) :
    List String → List (String × JsVal) → Except String (List (String × JsVal))
  | [], responses => .ok responses
  | name :: rest, responses =>
    match alookup entities name with
    | none =>
      .error ("Data has been requested from source " ++ name ++
        ", but no matching source was provided")
    | some provider =>
      let depends_on := (alookup dag name).getD []
      let prior := depends_on.map (fun d => (alookup responses d).getD JsVal.vundef)
      let options := mkOptions name shared
      schedule entities dag shared rest (responses ++ [(name, provider options prior)])

/-- `getLinkedData(shared_options, entities, dependencies, consolidate)`.  An
empty dependency list returns the plain empty array.  Otherwise: parse every
declaration (the first failure propagates), build the graph, sort it, check and
schedule every node in order, and settle to the last response (consolidate) or to
the list of all responses in order. -/
def getLinkedData (shared : List (String × JsVal)) (entities : List (String × Provider))
    (dependencies : List String) (consolidate : Bool) : Except String JsVal :=
  if dependencies.isEmpty then .ok (JsVal.vlist [])
  else
    match dependencies.mapM _parse_declaration with
    | .error e => .error e
    | .ok parsed =>
      let dag := buildDag parsed
      match toposort dag with
      | .error e => .error e
      | .ok order =>
        match schedule entities dag shared order [] with
        | .error e => .error e
        | .ok responses =>
          let all_results := responses.map Prod.snd
          .ok (if consolidate then (all_results.getLast?).getD JsVal.vundef
               else JsVal.vlist all_results)

/-- The direct-prerequisite relation of a graph: `p` is one of `n`'s declared
prerequisites and is itself a declared node. -/
def directPre (dag : List (String × List String)) (p n : String) : Prop :=
  p ∈ (alookup dag n).getD [] ∧ p ∈ dag.map Prod.fst

/-! ### Arena-helper lemmas -/

theorem modIdx_length (l : List α) (i : Nat) (f : α → α) :
    (modIdx l i f).length = l.length := by
  unfold modIdx
  cases h : l[i]? with
  | none => rfl
  | some x => simp

theorem modIdx_get_ne (l : List α) (i j : Nat) (f : α → α) (h : j ≠ i) :
    (modIdx l i f)[j]? = l[j]? := by
  unfold modIdx
  cases hx : l[i]? with
  | none => rfl
  | some x => simp [List.getElem?_set_ne (Ne.symm h)]

theorem modIdx_get_eq (l : List α) (i : Nat) (f : α → α) (x : α) (h : l[i]? = some x) :
    (modIdx l i f)[i]? = some (f x) := by
  unfold modIdx
  rw [h]
  have hi : i < l.length := (List.getElem?_eq_some_iff.mp h).1
  simp [List.getElem?_set_self hi]

/-! ### Chain-segment lemmas -/

namespace LRUCache

variable {K V M : Type}

theorem segb_agree {a a' : List (LLNode K V M)} {ids : List Nat}
    (h : ∀ i ∈ ids, a'[i]? = a[i]?) :
    ∀ p q, segb a' p ids q = segb a p ids q := by
  induction ids with
  | nil => intro p q; rfl
  | cons i rest ih =>
    intro p q
    simp only [segb]
    rw [h i (List.mem_cons_self _ _)]
    cases a[i]? with
    | none => rfl
    | some node => rw [ih (fun j hj => h j (List.mem_cons_of_mem _ hj))]

theorem segb_cons {a : List (LLNode K V M)} {p q : Option Nat} {i : Nat} {rest : List Nat} :
    segb a p (i :: rest) q = true ↔
      ∃ node, a[i]? = some node ∧ node.prev = p ∧ node.next = rest.head?.or q ∧
        segb a (some i) rest q = true := by
  simp only [segb]
  cases h : a[i]? with
  | none => simp
  | some node => simp [Bool.and_assoc, and_assoc]

theorem getLast?_or_cons (i : Nat) (L : List Nat) (p : Option Nat) :
    ((i :: L).getLast?).or p = (L.getLast?).or (some i) := by
  cases L with
  | nil => rfl
  | cons j L' =>
    rw [List.getLast?_cons_cons]
    obtain ⟨x, hx⟩ := Option.isSome_iff_exists.mp
      (List.getLast?_isSome.mpr (List.cons_ne_nil j L'))
    rw [hx]
    rfl

theorem segb_append (a : List (LLNode K V M)) (L R : List Nat) (p q : Option Nat) :
    segb a p (L ++ R) q =
      (segb a p L (R.head?.or q) && segb a ((L.getLast?).or p) R q) := by
  induction L generalizing p with
  | nil => simp [segb]
  | cons i L' ih =>
    simp only [List.cons_append, segb]
    cases a[i]? with
    | none => rfl
    | some node =>
      dsimp only
      simp only [List.append_eq]
      rw [ih (some i)]
      simp only [List.head?_append, Option.or_assoc, getLast?_or_cons, Bool.and_assoc]

theorem segb_mem_lt {a : List (LLNode K V M)} :
    ∀ {ids : List Nat} {p q : Option Nat}, segb a p ids q = true →
      ∀ i ∈ ids, i < a.length := by
  intro ids
  induction ids with
  | nil => intro p q _ i hi; simp at hi
  | cons j rest ih =>
    intro p q h i hi
    obtain ⟨node, ha, _, _, hrest⟩ := segb_cons.mp h
    rcases List.mem_cons.mp hi with rfl | hi'
    · exact (List.getElem?_eq_some_iff.mp ha).1
    · exact ih hrest i hi'

theorem chainAux_eq {a : List (LLNode K V M)} :
    ∀ (ids : List Nat) (p : Option Nat), segb a p ids none = true →
      ∀ fuel, ids.length ≤ fuel → chainAux a fuel ids.head? = ids := by
  intro ids
  induction ids with
  | nil =>
    intro p _ fuel _
    cases fuel <;> rfl
  | cons i rest ih =>
    intro p h fuel hf
    obtain ⟨node, ha, _, hnext, hrest⟩ := segb_cons.mp h
    cases fuel with
    | zero => simp at hf
    | succ f =>
      simp only [List.head?_cons, chainAux, ha]
      rw [hnext, Option.or_none, ih (some i) hrest f (by simpa using hf)]

theorem keyAt_modIdx (a : List (LLNode K V M)) (j : Nat) (f : LLNode K V M → LLNode K V M)
    (hf : ∀ n, (f n).key = n.key) (x : Nat) : keyAt (modIdx a j f) x = keyAt a x := by
  by_cases hx : x = j
  · subst hx
    cases h : a[x]? with
    | none => simp [keyAt, modIdx, h]
    | some n => unfold keyAt; rw [modIdx_get_eq a x f n h, h]; simp [hf]
  · unfold keyAt; rw [modIdx_get_ne a j x f hx]

theorem valueAt_modIdx (a : List (LLNode K V M)) (j : Nat) (f : LLNode K V M → LLNode K V M)
    (hf : ∀ n, (f n).value = n.value) (x : Nat) : valueAt (modIdx a j f) x = valueAt a x := by
  by_cases hx : x = j
  · subst hx
    cases h : a[x]? with
    | none => simp [valueAt, modIdx, h]
    | some n => unfold valueAt; rw [modIdx_get_eq a x f n h, h]; simp [hf]
  · unfold valueAt; rw [modIdx_get_ne a j x f hx]

theorem metaAt_modIdx (a : List (LLNode K V M)) (j : Nat) (f : LLNode K V M → LLNode K V M)
    (hf : ∀ n, (f n).metadata = n.metadata) (x : Nat) : metaAt (modIdx a j f) x = metaAt a x := by
  by_cases hx : x = j
  · subst hx
    cases h : a[x]? with
    | none => simp [metaAt, modIdx, h]
    | some n => unfold metaAt; rw [modIdx_get_eq a x f n h, h]; simp [hf]
  · unfold metaAt; rw [modIdx_get_ne a j x f hx]

theorem keyAt_append (a : List (LLNode K V M)) (n : LLNode K V M) (x : Nat)
    (hx : x < a.length) : keyAt (a ++ [n]) x = keyAt a x := by
  unfold keyAt
  rw [List.getElem?_append_left hx]

theorem valueAt_append (a : List (LLNode K V M)) (n : LLNode K V M) (x : Nat)
    (hx : x < a.length) : valueAt (a ++ [n]) x = valueAt a x := by
  unfold valueAt
  rw [List.getElem?_append_left hx]

theorem SInv.key_inj [DecidableEq K] {c : LRUCache K V M} {ids : List Nat} (h : SInv c ids) :
    ∀ i ∈ ids, ∀ j ∈ ids, keyAt c.arena i = keyAt c.arena j → i = j := by
  intro i hi j hj hk
  obtain ⟨ki, hki, hli⟩ := h.ids_sub i hi
  obtain ⟨kj, hkj, hlj⟩ := h.ids_sub j hj
  rw [hki, hkj] at hk
  injection hk with hk
  subst hk
  rw [hli] at hlj
  injection hlj

end LRUCache

/-! ### Association-list lemmas (JS `Map` model) -/

section MapLemmas

variable [DecidableEq α]

theorem alookup_append (xs ys : List (α × β)) (k : α) :
    alookup (xs ++ ys) k = (alookup xs k).or (alookup ys k) := by
  induction xs with
  | nil => simp [alookup]
  | cons p rest ih =>
    by_cases h : p.1 = k <;> simp [alookup, h, ih]

theorem alookup_eq_none_iff (m : List (α × β)) (k : α) :
    alookup m k = none ↔ k ∉ m.map Prod.fst := by
  induction m with
  | nil => simp [alookup]
  | cons p rest ih =>
    simp only [alookup, List.map_cons, List.mem_cons]
    by_cases h : p.1 = k
    · simp [h]
    · simp only [if_neg h, ih]
      constructor
      · intro hnone hmem
        rcases hmem with h1 | h2
        · exact h h1.symm
        · exact hnone h2
      · exact fun hno h2 => hno (Or.inr h2)

theorem alookup_mem {m : List (α × β)} {k : α} {v : β} (h : alookup m k = some v) :
    (k, v) ∈ m := by
  induction m with
  | nil => simp [alookup] at h
  | cons p rest ih =>
    by_cases hp : p.1 = k
    · simp only [alookup, if_pos hp] at h
      injection h with h2
      rw [← h2, ← hp]
      exact List.mem_cons_self _ _
    · simp only [alookup, if_neg hp] at h
      exact List.mem_cons_of_mem _ (ih h)

theorem mapDelete_sublist (m : List (α × β)) (k : α) :
    (mapDelete m k).Sublist m := by
  induction m with
  | nil => simp [mapDelete]
  | cons p rest ih =>
    by_cases h : p.1 = k
    · simp only [mapDelete, if_pos h]
      exact ih.cons _
    · simp only [mapDelete, if_neg h]
      exact ih.cons₂ _

theorem mem_mapDelete {m : List (α × β)} {k : α} {p : α × β} :
    p ∈ mapDelete m k ↔ p ∈ m ∧ p.1 ≠ k := by
  induction m with
  | nil => simp [mapDelete]
  | cons q rest ih =>
    by_cases h : q.1 = k
    · simp only [mapDelete, if_pos h, ih, List.mem_cons]
      constructor
      · exact fun hx => ⟨Or.inr hx.1, hx.2⟩
      · rintro ⟨hq | hm, hne⟩
        · exact absurd (hq ▸ h) hne
        · exact ⟨hm, hne⟩
    · simp only [mapDelete, if_neg h, List.mem_cons, ih]
      constructor
      · rintro (rfl | hx)
        · exact ⟨Or.inl rfl, h⟩
        · exact ⟨Or.inr hx.1, hx.2⟩
      · rintro ⟨hq | hm, hne⟩
        · exact Or.inl hq
        · exact Or.inr ⟨hm, hne⟩

theorem alookup_mapDelete (m : List (α × β)) (k k' : α) :
    alookup (mapDelete m k) k' = if k' = k then none else alookup m k' := by
  induction m with
  | nil => simp [alookup, mapDelete]
  | cons p rest ih =>
    by_cases hk : k' = k
    · subst hk
      simp only [if_pos rfl] at ih ⊢
      by_cases hpk : p.1 = k'
      · simp [mapDelete, if_pos hpk, ih]
      · simp [mapDelete, if_neg hpk, alookup, hpk, ih]
    · simp only [if_neg hk] at ih ⊢
      by_cases hpk : p.1 = k
      · have hpk' : ¬p.1 = k' := fun h => hk (by rw [← h, hpk])
        simp [mapDelete, if_pos hpk, ih, alookup, hpk']
      · simp [mapDelete, if_neg hpk, alookup, ih]

theorem mapDelete_of_absent {m : List (α × β)} {k : α} (h : alookup m k = none) :
    mapDelete m k = m := by
  induction m with
  | nil => rfl
  | cons p rest ih =>
    by_cases hp : p.1 = k
    · simp [alookup, hp] at h
    · simp only [alookup, if_neg hp] at h
      simp [mapDelete, if_neg hp, ih h]

theorem mapDelete_length {m : List (α × β)} {k : α} {v : β}
    (hnd : (m.map Prod.fst).Nodup) (h : alookup m k = some v) :
    (mapDelete m k).length + 1 = m.length := by
  induction m with
  | nil => simp [alookup] at h
  | cons p rest ih =>
    simp only [List.map_cons, List.nodup_cons] at hnd
    by_cases hpk : p.1 = k
    · have habs : alookup rest k = none := by
        rw [alookup_eq_none_iff]
        exact fun hmem => hnd.1 (hpk ▸ hmem)
      simp [mapDelete, if_pos hpk, mapDelete_of_absent habs]
    · simp only [alookup, if_neg hpk] at h
      simp only [mapDelete, if_neg hpk, List.length_cons]
      rw [← ih hnd.2 h]

theorem mapSet_of_absent {m : List (α × β)} {k : α} (h : alookup m k = none) (v : β) :
    mapSet m k v = m ++ [(k, v)] := by
  simp [mapSet, h]

end MapLemmas

/-! ### Computation laws for `_remove`

One equation per shape of the removed node's pointers.  The hypothesis `p ≠ i`
(the node is not its own predecessor) always holds on well-formed chains. -/

namespace LRUCache

variable {K V M : Type} [DecidableEq K]
variable {c : LRUCache K V M} {i : Nat} {node : LLNode K V M}

theorem _remove_eq_nn (ha : c.arena[i]? = some node)
    (hp : node.prev = none) (hq : node.next = none) :
    c._remove i = { c with head := node.next, tail := node.prev,
                           store := mapDelete c.store node.key,
                           cur_size := c.cur_size - 1 } := by
  unfold _remove
  rw [ha]
  dsimp only
  rw [hp]
  dsimp only
  rw [ha]
  dsimp only
  rw [hq, hp]

theorem _remove_eq_ns {q : Nat} (ha : c.arena[i]? = some node)
    (hp : node.prev = none) (hq : node.next = some q) :
    c._remove i = { c with head := node.next,
                           arena := modIdx c.arena q (fun n => { n with prev := node.prev }),
                           store := mapDelete c.store node.key,
                           cur_size := c.cur_size - 1 } := by
  unfold _remove
  rw [ha]
  dsimp only
  rw [hp]
  dsimp only
  rw [ha]
  dsimp only
  rw [hq, hp]

theorem _remove_eq_sn {p : Nat} (ha : c.arena[i]? = some node)
    (hp : node.prev = some p) (hq : node.next = none) (hpi : p ≠ i) :
    c._remove i = { c with arena := modIdx c.arena p (fun n => { n with next := node.next }),
                           tail := node.prev,
                           store := mapDelete c.store node.key,
                           cur_size := c.cur_size - 1 } := by
  unfold _remove
  rw [ha]
  dsimp only
  rw [hp]
  dsimp only
  rw [modIdx_get_ne c.arena p i _ (Ne.symm hpi), ha]
  dsimp only
  rw [hq, hp]

theorem _remove_eq_ss {p q : Nat} (ha : c.arena[i]? = some node)
    (hp : node.prev = some p) (hq : node.next = some q) (hpi : p ≠ i) :
    c._remove i = { c with
      arena := modIdx (modIdx c.arena p (fun n => { n with next := node.next })) q
        (fun n => { n with prev := node.prev }),
      store := mapDelete c.store node.key,
      cur_size := c.cur_size - 1 } := by
  unfold _remove
  rw [ha]
  dsimp only
  rw [hp]
  dsimp only
  rw [modIdx_get_ne c.arena p i _ (Ne.symm hpi), ha]
  dsimp only
  rw [hq, hp]

/-! ### Preservation of well-formedness by `_remove` -/

theorem head?_append_left {X : Type} (L R : List X) (h : L ≠ []) :
    (L ++ R).head? = L.head? := by
  cases L with
  | nil => exact absurd rfl h
  | cons a t => rfl

theorem getLast?_append_right {X : Type} (L R : List X) (h : R ≠ []) :
    (L ++ R).getLast? = R.getLast? := by
  rw [List.getLast?_append]
  obtain ⟨y, hy⟩ := Option.isSome_iff_exists.mp (List.getLast?_isSome.mpr h)
  rw [hy]
  rfl

theorem nodup_split {L R : List Nat} {i : Nat} (h : (L ++ i :: R).Nodup) :
    L.Nodup ∧ R.Nodup ∧ i ∉ L ∧ i ∉ R ∧ ∀ x ∈ L, x ∉ R := by
  rw [List.nodup_append] at h
  obtain ⟨h1, h2, h3⟩ := h
  rw [List.nodup_cons] at h2
  refine ⟨h1, h2.2, fun hi => h3 hi (List.mem_cons_self _ _), h2.1, ?_⟩
  exact fun x hx hxr => h3 hx (List.mem_cons_of_mem _ hxr)

omit [DecidableEq K] in
theorem seg_split {a : List (LLNode K V M)} {L R : List Nat} {i : Nat}
    (h : segb a none (L ++ i :: R) none = true) :
    ∃ node, a[i]? = some node ∧ node.prev = L.getLast? ∧ node.next = R.head? ∧
      segb a none L (some i) = true ∧ segb a (some i) R none = true := by
  rw [segb_append] at h
  simp only [List.head?_cons, Option.or_none] at h
  rw [Bool.and_eq_true] at h
  obtain ⟨h1, h2⟩ := h
  obtain ⟨node, ha, hp, hn, hR⟩ := segb_cons.mp h2
  rw [Option.or_none] at hn
  exact ⟨node, ha, hp, hn, h1, hR⟩

/-- Rebuilding structural well-formedness after a removal: the store/key facts are
independent of the pointer-surgery case analysis. -/
theorem sinv_rebuild {c c' : LRUCache K V M} {L R : List Nat} {i : Nat}
    {node : LLNode K V M}
    (h : SInv c (L ++ i :: R))
    (ha : c.arena[i]? = some node)
    (hstore : c'.store = mapDelete c.store node.key)
    (hkeys : ∀ x, keyAt c'.arena x = keyAt c.arena x)
    (hseg : segb c'.arena none (L ++ R) none = true)
    (hhead : c'.head = (L ++ R).head?)
    (htail : c'.tail = (L ++ R).getLast?) :
    SInv c' (L ++ R) := by
  obtain ⟨hndL, hndR, hiL, hiR, hLR⟩ := nodup_split h.ids_nodup
  have hki : keyAt c.arena i = some node.key := by
    unfold keyAt; rw [ha]; rfl
  have hmem_i : i ∈ L ++ i :: R := List.mem_append_right _ (List.mem_cons_self _ _)
  have hlook_i : alookup c.store node.key = some i := by
    obtain ⟨k, hk1, hk2⟩ := h.ids_sub i hmem_i
    rw [hki] at hk1
    injection hk1 with hk1
    rw [hk1]
    exact hk2
  have hmem_lift : ∀ x, x ∈ L ++ R → x ∈ L ++ i :: R := by
    intro x hx
    rcases List.mem_append.mp hx with hx | hx
    · exact List.mem_append_left _ hx
    · exact List.mem_append_right _ (List.mem_cons_of_mem _ hx)
  have hne_i : ∀ x, x ∈ L ++ R → x ≠ i := by
    intro x hx hcon
    subst hcon
    rcases List.mem_append.mp hx with hx | hx
    · exact hiL hx
    · exact hiR hx
  refine ⟨hseg, hhead, htail, ?_, ?_, ?_, ?_, ?_⟩
  · -- nodup
    have : (L ++ R).Sublist (L ++ i :: R) :=
      List.Sublist.append_left (List.sublist_cons_self i R) L
    exact h.ids_nodup.sublist this
  · -- store_sub
    intro p hp
    rw [hstore] at hp
    obtain ⟨hp1, hp2⟩ := mem_mapDelete.mp hp
    obtain ⟨hmem, hkey⟩ := h.store_sub p hp1
    have hne : p.2 ≠ i := by
      intro hcon
      rw [hcon, hki] at hkey
      injection hkey with hkey
      exact hp2 hkey.symm
    rcases List.mem_append.mp hmem with hm | hm
    · exact ⟨List.mem_append_left _ hm, (hkeys p.2).trans hkey⟩
    · rcases List.mem_cons.mp hm with hm | hm
      · exact absurd hm hne
      · exact ⟨List.mem_append_right _ hm, (hkeys p.2).trans hkey⟩
  · -- ids_sub
    intro x hx
    obtain ⟨k, hk1, hk2⟩ := h.ids_sub x (hmem_lift x hx)
    have hkne : k ≠ node.key := by
      intro hcon
      subst hcon
      have := h.key_inj x (hmem_lift x hx) i hmem_i (by rw [hk1, hki])
      exact hne_i x hx this
    refine ⟨k, (hkeys x).trans hk1, ?_⟩
    rw [hstore, alookup_mapDelete, if_neg hkne]
    exact hk2
  · -- store_keys_nodup
    rw [hstore]
    exact h.store_keys_nodup.sublist (List.Sublist.map _ (mapDelete_sublist _ _))
  · -- store_len
    rw [hstore]
    have hlen := mapDelete_length h.store_keys_nodup hlook_i
    have := h.store_len
    simp only [List.length_append, List.length_cons] at this ⊢
    omega

/-- `_remove` preserves structural well-formedness: removing the node at position
`i` of the chain `L ++ i :: R` leaves the chain `L ++ R`. -/
theorem remove_sinv {c : LRUCache K V M} {L R : List Nat} {i : Nat}
    (h : SInv c (L ++ i :: R)) : SInv (c._remove i) (L ++ R) := by
  obtain ⟨node, ha, hprev, hnext, hsegL, hsegR⟩ := seg_split h.seg_ok
  obtain ⟨hndL, hndR, hiL, hiR, hLR⟩ := nodup_split h.ids_nodup
  rcases List.eq_nil_or_concat L with rfl | ⟨L₀, l, hL⟩
  · -- the removed node is the chain head
    rw [List.getLast?_nil] at hprev
    cases R with
    | nil =>
      rw [List.head?_nil] at hnext
      rw [_remove_eq_nn ha hprev hnext]
      exact sinv_rebuild h ha rfl (fun x => rfl) rfl hnext hprev
    | cons r R' =>
      have hnext' : node.next = some r := by rw [hnext]; rfl
      have hrR' : r ∉ R' := (List.nodup_cons.mp hndR).1
      obtain ⟨nr, har, hpr, hnr, hR'⟩ := segb_cons.mp hsegR
      have hagree : ∀ x ∈ R',
          (modIdx c.arena r (fun n => { n with prev := node.prev }))[x]? = c.arena[x]? :=
        fun x hx => modIdx_get_ne c.arena r x _ (fun hc => hrR' (hc ▸ hx))
      rw [_remove_eq_ns ha hprev hnext']
      refine sinv_rebuild h ha rfl
        (fun x => keyAt_modIdx c.arena r (fun n => { n with prev := node.prev }) (fun n => rfl) x)
        ?_ ?_ ?_
      · show segb _ none (r :: R') none = true
        apply segb_cons.mpr
        refine ⟨{ nr with prev := node.prev }, modIdx_get_eq _ _ _ _ har, hprev, hnr, ?_⟩
        rw [segb_agree hagree (some r) none]
        exact hR'
      · exact hnext'
      · rw [h.tail_ok]
        exact List.getLast?_cons_cons
  · -- the removed node has a predecessor `l`
    rw [List.concat_eq_append] at hL
    subst hL
    have hprev' : node.prev = some l := by rw [hprev, List.getLast?_concat]
    have hlmem : l ∈ L₀ ++ [l] := List.mem_append_right _ (List.mem_cons_self _ _)
    have hli : l ≠ i := fun hcon => hiL (by rw [← hcon]; exact hlmem)
    obtain ⟨hndL₀, _, hdisjL⟩ := List.nodup_append.mp hndL
    have hlL₀ : l ∉ L₀ := fun hc => hdisjL hc (List.mem_cons_self _ _)
    rw [segb_append] at hsegL
    simp only [List.head?_cons, Option.or_some, Option.or_none] at hsegL
    rw [Bool.and_eq_true] at hsegL
    obtain ⟨hsegL₀, hsegl⟩ := hsegL
    obtain ⟨nl, hal, hpl, hnl, _⟩ := segb_cons.mp hsegl
    cases R with
    | nil =>
      have hnext' : node.next = none := by rw [hnext]; rfl
      have hagree₀ : ∀ x ∈ L₀,
          (modIdx c.arena l (fun n => { n with next := node.next }))[x]? = c.arena[x]? :=
        fun x hx => modIdx_get_ne c.arena l x _ (fun hc => hlL₀ (hc ▸ hx))
      rw [_remove_eq_sn ha hprev' hnext' hli]
      refine sinv_rebuild h ha rfl
        (fun x => keyAt_modIdx c.arena l (fun n => { n with next := node.next }) (fun n => rfl) x)
        ?_ ?_ ?_
      · rw [List.append_nil, segb_append, Bool.and_eq_true]
        constructor
        · simp only [List.head?_cons, Option.or_none]
          rw [segb_agree hagree₀ none (some l)]
          exact hsegL₀
        · simp only [Option.or_none]
          apply segb_cons.mpr
          exact ⟨{ nl with next := node.next }, modIdx_get_eq _ _ _ _ hal, hpl, hnext', rfl⟩
      · rw [h.head_ok, List.append_nil, head?_append_left (L₀ ++ [l]) [i] (by simp)]
      · rw [List.append_nil, List.getLast?_concat]
        exact hprev'
    | cons r R' =>
      have hnext' : node.next = some r := by rw [hnext]; rfl
      have hrR' : r ∉ R' := (List.nodup_cons.mp hndR).1
      have hrl : r ≠ l := fun hc => hLR l hlmem (by rw [← hc]; exact List.mem_cons_self _ _)
      obtain ⟨nr, har, hpr, hnr, hR'⟩ := segb_cons.mp hsegR
      have hagree₀ : ∀ x ∈ L₀,
          (modIdx (modIdx c.arena l (fun n => { n with next := node.next })) r
            (fun n => { n with prev := node.prev }))[x]? = c.arena[x]? := by
        intro x hx
        have hxr : x ≠ r := fun hc => hLR x (List.mem_append_left _ hx) (by
          rw [hc]; exact List.mem_cons_self _ _)
        have hxl : x ≠ l := fun hc => hlL₀ (hc ▸ hx)
        rw [modIdx_get_ne _ r x _ hxr, modIdx_get_ne _ l x _ hxl]
      have hagreeR' : ∀ x ∈ R',
          (modIdx (modIdx c.arena l (fun n => { n with next := node.next })) r
            (fun n => { n with prev := node.prev }))[x]? = c.arena[x]? := by
        intro x hx
        have hxr : x ≠ r := fun hc => hrR' (hc ▸ hx)
        have hxl : x ≠ l := fun hc => hLR l hlmem (by
          rw [← hc]; exact List.mem_cons_of_mem _ hx)
        rw [modIdx_get_ne _ r x _ hxr, modIdx_get_ne _ l x _ hxl]
      rw [_remove_eq_ss ha hprev' hnext' hli]
      refine sinv_rebuild h ha rfl (fun x => ?_) ?_ ?_ ?_
      · rw [keyAt_modIdx (modIdx c.arena l (fun n => { n with next := node.next })) r
          (fun n => { n with prev := node.prev }) (fun n => rfl) x,
          keyAt_modIdx c.arena l (fun n => { n with next := node.next }) (fun n => rfl) x]
      · rw [segb_append, Bool.and_eq_true]
        constructor
        · simp only [List.head?_cons, Option.or_none]
          rw [segb_append, Bool.and_eq_true]
          constructor
          · simp only [List.head?_cons, Option.or_some]
            rw [segb_agree hagree₀ none (some l)]
            exact hsegL₀
          · simp only [Option.or_none]
            apply segb_cons.mpr
            refine ⟨{ nl with next := node.next }, ?_, hpl, hnext', rfl⟩
            rw [modIdx_get_ne _ r l _ (fun hc => hrl hc.symm)]
            exact modIdx_get_eq _ _ _ _ hal
        · simp only [List.getLast?_concat, Option.or_none]
          apply segb_cons.mpr
          refine ⟨{ nr with prev := node.prev }, ?_, hprev', hnr, ?_⟩
          · apply modIdx_get_eq
            rw [modIdx_get_ne _ l r _ hrl]
            exact har
          · rw [segb_agree hagreeR' (some r) none]
            exact hR'
      · rw [h.head_ok, head?_append_left (L₀ ++ [l]) (i :: r :: R') (by simp),
          head?_append_left (L₀ ++ [l]) (r :: R') (by simp)]
      · rw [h.tail_ok, getLast?_append_right (L₀ ++ [l]) (i :: r :: R') (by simp),
          getLast?_append_right (L₀ ++ [l]) (r :: R') (by simp)]
        exact List.getLast?_cons_cons

/-- Field-level effects of `_remove` that do not depend on the pointer shape. -/
theorem _remove_components {c : LRUCache K V M} {i : Nat} {node : LLNode K V M}
    (ha : c.arena[i]? = some node) (hpi : node.prev ≠ some i) :
    (c._remove i).store = mapDelete c.store node.key ∧
      (c._remove i).cur_size = c.cur_size - 1 ∧
      (c._remove i).max_size = c.max_size ∧
      (∀ x, keyAt (c._remove i).arena x = keyAt c.arena x) ∧
      (∀ x, valueAt (c._remove i).arena x = valueAt c.arena x) ∧
      (∀ x, metaAt (c._remove i).arena x = metaAt c.arena x) := by
  cases hp : node.prev with
  | none =>
    cases hq : node.next with
    | none =>
      rw [_remove_eq_nn ha hp hq]
      exact ⟨rfl, rfl, rfl, fun x => rfl, fun x => rfl, fun x => rfl⟩
    | some q =>
      rw [_remove_eq_ns ha hp hq]
      exact ⟨rfl, rfl, rfl,
        fun x => keyAt_modIdx c.arena q (fun n => { n with prev := node.prev }) (fun n => rfl) x,
        fun x => valueAt_modIdx c.arena q (fun n => { n with prev := node.prev }) (fun n => rfl) x,
        fun x => metaAt_modIdx c.arena q (fun n => { n with prev := node.prev }) (fun n => rfl) x⟩
  | some p =>
    have hpi' : p ≠ i := fun hcon => hpi (by rw [hp, hcon])
    cases hq : node.next with
    | none =>
      rw [_remove_eq_sn ha hp hq hpi']
      exact ⟨rfl, rfl, rfl,
        fun x => keyAt_modIdx c.arena p (fun n => { n with next := node.next }) (fun n => rfl) x,
        fun x => valueAt_modIdx c.arena p (fun n => { n with next := node.next }) (fun n => rfl) x,
        fun x => metaAt_modIdx c.arena p (fun n => { n with next := node.next }) (fun n => rfl) x⟩
    | some q =>
      rw [_remove_eq_ss ha hp hq hpi']
      refine ⟨rfl, rfl, rfl, fun x => ?_, fun x => ?_, fun x => ?_⟩
      · rw [keyAt_modIdx (modIdx c.arena p (fun n => { n with next := node.next })) q
          (fun n => { n with prev := node.prev }) (fun n => rfl) x,
          keyAt_modIdx c.arena p (fun n => { n with next := node.next }) (fun n => rfl) x]
      · rw [valueAt_modIdx (modIdx c.arena p (fun n => { n with next := node.next })) q
          (fun n => { n with prev := node.prev }) (fun n => rfl) x,
          valueAt_modIdx c.arena p (fun n => { n with next := node.next }) (fun n => rfl) x]
      · rw [metaAt_modIdx (modIdx c.arena p (fun n => { n with next := node.next })) q
          (fun n => { n with prev := node.prev }) (fun n => rfl) x,
          metaAt_modIdx c.arena p (fun n => { n with next := node.next }) (fun n => rfl) x]

/-- Structure facts survive a change of the `cur_size` counter. -/
theorem sinv_set_cur {c : LRUCache K V M} {ids : List Nat} (h : SInv c ids) (x : Int) :
    SInv { c with cur_size := x } ids :=
  ⟨h.seg_ok, h.head_ok, h.tail_ok, h.ids_nodup, h.store_sub, h.ids_sub,
    h.store_keys_nodup, h.store_len⟩

/-- `insertAtHead` links a fresh node in front of the chain. -/
theorem insert_sinv {c : LRUCache K V M} {ids : List Nat} {k : K} (v : V) (m : M)
    (h : SInv c ids) (hk : alookup c.store k = none) :
    SInv (insertAtHead c k v m) (c.arena.length :: ids) ∧
      (insertAtHead c k v m).cur_size = c.cur_size ∧
      (insertAtHead c k v m).max_size = c.max_size ∧
      (insertAtHead c k v m).arena[c.arena.length]? =
        some { key := k, value := v, metadata := m, prev := none, next := c.head } := by
  have hlt : ∀ x ∈ ids, x < c.arena.length := segb_mem_lt h.seg_ok
  have hnewfresh : c.arena.length ∉ ids := fun hmem => absurd (hlt _ hmem) (lt_irrefl _)
  have hkey_old : ∀ x ∈ ids, keyAt c.arena x ≠ some k := by
    intro x hx hcon
    obtain ⟨kx, hk1, hk2⟩ := h.ids_sub x hx
    rw [hk1] at hcon
    injection hcon with hcon
    rw [hcon] at hk2
    rw [hk2] at hk
    exact Option.noConfusion hk
  have hkeys_nodup : ((c.store ++ [(k, c.arena.length)]).map Prod.fst).Nodup := by
    rw [List.map_append, List.nodup_append]
    refine ⟨h.store_keys_nodup, List.nodup_singleton _, ?_⟩
    intro x hx hx'
    simp only [List.map_cons, List.map_nil, List.mem_singleton] at hx'
    rw [hx'] at hx
    exact (alookup_eq_none_iff c.store k).mp hk hx
  cases hh : c.head with
  | none =>
    -- empty cache: the new node is both head and tail
    have hids : ids = [] := by
      have := h.head_ok
      rw [hh] at this
      exact (List.head?_eq_none_iff.mp this.symm)
    subst hids
    have hstore_nil : c.store = [] := List.length_eq_zero.mp h.store_len
    unfold insertAtHead
    rw [hh]
    dsimp only
    rw [mapSet_of_absent hk, hstore_nil]
    refine ⟨⟨?_, rfl, rfl, ?_, ?_, ?_, ?_, ?_⟩, rfl, rfl, ?_⟩
    · -- seg [newId]
      apply segb_cons.mpr
      exact ⟨_, List.getElem?_concat_length c.arena _, rfl, rfl, rfl⟩
    · exact List.nodup_singleton _
    · intro p hp
      simp only [List.nil_append, List.mem_singleton] at hp
      subst hp
      refine ⟨List.mem_singleton.mpr rfl, ?_⟩
      unfold keyAt
      rw [List.getElem?_concat_length]
      rfl
    · intro x hx
      rw [List.mem_singleton] at hx
      subst hx
      refine ⟨k, ?_, ?_⟩
      · unfold keyAt
        rw [List.getElem?_concat_length]
        rfl
      · simp [alookup]
    · simp
    · rfl
    · rw [List.getElem?_concat_length]
  | some hd =>
    obtain ⟨t, hids⟩ : ∃ t, ids = hd :: t := by
      cases ids with
      | nil =>
        rw [h.head_ok] at hh
        exact absurd hh (by simp)
      | cons a t =>
        have := h.head_ok
        rw [hh] at this
        simp only [List.head?_cons] at this
        injection this with this
        exact ⟨t, by rw [this]⟩
    subst hids
    obtain ⟨nhd, hahd, hphd, hnhd, hT⟩ := segb_cons.mp h.seg_ok
    have hhd_lt : hd < c.arena.length := hlt hd (List.mem_cons_self _ _)
    have hhd_ne_new : hd ≠ c.arena.length := Nat.ne_of_lt hhd_lt
    have hnew_at : (modIdx (c.arena ++
        [({ key := k, value := v, metadata := m, prev := none, next := some hd } : LLNode K V M)])
        hd (fun n => { n with prev := some c.arena.length }))[c.arena.length]? =
        some { key := k, value := v, metadata := m, prev := none, next := some hd } := by
      rw [modIdx_get_ne _ hd _ _ (Ne.symm hhd_ne_new)]
      exact List.getElem?_concat_length _ _
    have hold_at : ∀ x, x < c.arena.length → x ≠ hd →
        (modIdx (c.arena ++
          [({ key := k, value := v, metadata := m, prev := none, next := some hd } : LLNode K V M)])
          hd (fun n => { n with prev := some c.arena.length }))[x]? = c.arena[x]? := by
      intro x hxlt hxhd
      rw [modIdx_get_ne _ hd x _ hxhd, List.getElem?_append_left hxlt]
    have hkeyAt_pres : ∀ x, x < c.arena.length →
        keyAt (modIdx (c.arena ++
          [({ key := k, value := v, metadata := m, prev := none, next := some hd } : LLNode K V M)])
          hd (fun n => { n with prev := some c.arena.length })) x = keyAt c.arena x := by
      intro x hxlt
      rw [keyAt_modIdx (c.arena ++
        [({ key := k, value := v, metadata := m, prev := none, next := some hd } : LLNode K V M)])
        hd (fun n => { n with prev := some c.arena.length }) (fun n => rfl) x]
      unfold keyAt
      rw [List.getElem?_append_left hxlt]
    unfold insertAtHead
    rw [hh]
    dsimp only
    rw [mapSet_of_absent hk]
    refine ⟨⟨?_, rfl, ?_, ?_, ?_, ?_, ?_, ?_⟩, rfl, rfl, hnew_at⟩
    · -- seg (newId :: hd :: t)
      apply segb_cons.mpr
      refine ⟨{ key := k, value := v, metadata := m, prev := none, next := some hd },
        hnew_at, rfl, rfl, ?_⟩
      apply segb_cons.mpr
      have hhd_at : (modIdx (c.arena ++
          [({ key := k, value := v, metadata := m, prev := none, next := some hd } : LLNode K V M)])
          hd (fun n => { n with prev := some c.arena.length }))[hd]? =
          some { nhd with prev := some c.arena.length } := by
        apply modIdx_get_eq
        rw [List.getElem?_append_left hhd_lt]
        exact hahd
      refine ⟨{ nhd with prev := some c.arena.length }, hhd_at, rfl, hnhd, ?_⟩
      rw [segb_agree (fun x hx => hold_at x (hlt x (List.mem_cons_of_mem _ hx))
        (fun hc => (List.nodup_cons.mp h.ids_nodup).1 (hc ▸ hx))) (some hd) none]
      exact hT
    · -- tail
      rw [h.tail_ok]
      exact (List.getLast?_cons_cons).symm
    · -- nodup
      exact List.nodup_cons.mpr ⟨hnewfresh, h.ids_nodup⟩
    · -- store_sub
      intro p hp
      rcases List.mem_append.mp hp with hp | hp
      · obtain ⟨hmem, hkey⟩ := h.store_sub p hp
        exact ⟨List.mem_cons_of_mem _ hmem, (hkeyAt_pres p.2 (hlt _ hmem)).trans hkey⟩
      · rw [List.mem_singleton] at hp
        subst hp
        refine ⟨List.mem_cons_self _ _, ?_⟩
        unfold keyAt
        rw [hnew_at]
        rfl
    · -- ids_sub
      intro x hx
      rcases List.mem_cons.mp hx with rfl | hx'
      · refine ⟨k, ?_, ?_⟩
        · unfold keyAt
          rw [hnew_at]
          rfl
        · rw [alookup_append, hk]
          simp [alookup]
      · obtain ⟨kx, hk1, hk2⟩ := h.ids_sub x hx'
        refine ⟨kx, (hkeyAt_pres x (hlt x hx')).trans hk1, ?_⟩
        rw [alookup_append, hk2]
        rfl
    · exact hkeys_nodup
    · simp [h.store_len]

/-- Pre-assigning `this._tail = this._tail.prev` before `_remove(old)` is redundant
when the removed node is the chain's last: `_remove` overwrites the tail again. -/
theorem evict_removes_last {c : LRUCache K V M} {L : List Nat} {t : Nat}
    (h : SInv c (L ++ [t])) :
    ({ c with tail := (c.arena[t]?).bind (fun n => n.prev) })._remove t = c._remove t := by
  obtain ⟨node, ha, hprev, hnext, hsegL, -⟩ := seg_split h.seg_ok
  rw [List.head?_nil] at hnext
  have ha' : ({ c with tail := (c.arena[t]?).bind (fun n => n.prev) } :
      LRUCache K V M).arena[t]? = some node := ha
  rcases List.eq_nil_or_concat L with rfl | ⟨L₀, l, hL⟩
  · rw [List.getLast?_nil] at hprev
    rw [_remove_eq_nn ha' hprev hnext, _remove_eq_nn ha hprev hnext]
  · rw [List.concat_eq_append] at hL
    subst hL
    rw [List.getLast?_concat] at hprev
    have hlt : l ≠ t := by
      intro hc
      obtain ⟨-, -, hiL, -, -⟩ := nodup_split h.ids_nodup
      subst hc
      exact hiL (List.mem_append_right _ (List.mem_cons_self _ _))
    rw [_remove_eq_sn ha' hprev hnext hlt, _remove_eq_sn ha hprev hnext hlt]

/-- A present key splits the chain around its node. -/
theorem lookup_split {c : LRUCache K V M} {ids : List Nat} {k : K} {i : Nat}
    (h : SInv c ids) (hk : alookup c.store k = some i) :
    ∃ L R node, ids = L ++ i :: R ∧ c.arena[i]? = some node ∧ node.key = k := by
  obtain ⟨hmem_i, hkey⟩ := h.store_sub (k, i) (alookup_mem hk)
  obtain ⟨L, R, hLR⟩ := List.append_of_mem hmem_i
  unfold keyAt at hkey
  cases ha : c.arena[i]? with
  | none => rw [ha] at hkey; exact absurd hkey (by simp)
  | some node =>
    rw [ha] at hkey
    simp only [Option.map_some'] at hkey
    injection hkey with hkey
    exact ⟨L, R, node, hLR, rfl, hkey⟩

/-- `removePrior` leaves a well-formed chain in which `k` no longer occurs. -/
theorem removePrior_inv {c : LRUCache K V M} {ids : List Nat} (h : Inv c ids) (k : K) :
    ∃ ids₁, SInv (removePrior c k) ids₁ ∧
      (removePrior c k).cur_size = (ids₁.length : Int) ∧
      ids₁.length ≤ ids.length ∧
      (removePrior c k).max_size = c.max_size ∧
      alookup (removePrior c k).store k = none := by
  cases hk : alookup c.store k with
  | none =>
    have heq : removePrior c k = c := by unfold removePrior; rw [hk]
    exact ⟨ids, by rw [heq]; exact h.toSInv, by rw [heq, h.size_ok], le_refl _,
      by rw [heq], by rw [heq, hk]⟩
  | some i =>
    obtain ⟨L, R, node, hids, ha, hkey⟩ := lookup_split h.toSInv hk
    subst hids
    obtain ⟨node', ha', hprev, -, -, -⟩ := seg_split h.seg_ok
    rw [ha] at ha'
    injection ha' with ha'
    subst ha'
    have hprev_ne : node.prev ≠ some i := by
      rw [hprev]
      intro hcon
      obtain ⟨-, -, hiL, -, -⟩ := nodup_split h.ids_nodup
      exact hiL (List.mem_of_getLast?_eq_some hcon)
    obtain ⟨hstore, hcur, hmax, hkeys, hvals⟩ := _remove_components ha hprev_ne
    have heq : removePrior c k = c._remove i := by unfold removePrior; rw [hk]
    refine ⟨L ++ R, by rw [heq]; exact remove_sinv h.toSInv, ?_, ?_,
      by rw [heq]; exact hmax, ?_⟩
    · rw [heq, hcur, h.size_ok]
      simp only [List.length_append, List.length_cons]
      push_cast
      omega
    · simp only [List.length_append, List.length_cons]
      omega
    · rw [heq, hstore, hkey, alookup_mapDelete, if_pos rfl]

/-- `add` preserves full well-formedness. -/
theorem add_inv {c : LRUCache K V M} {ids : List Nat} (h : Inv c ids) (k : K) (v : V) (m : M) :
    ∃ ids', Inv (c.add k v m) ids' ∧ (c.add k v m).max_size = c.max_size := by
  by_cases h0 : c.max_size = 0
  · have heq : c.add k v m = c := by unfold add; rw [if_pos h0]
    exact ⟨ids, by rw [heq]; exact h, by rw [heq]⟩
  · obtain ⟨ids₁, hS1, hcur1, hlen1, hmax1, hk1⟩ := removePrior_inv h k
    obtain ⟨hS4, hcur4, hmax4, hnode4⟩ := insert_sinv v m hS1 hk1
    have heq : c.add k v m =
        { evictIfFull (insertAtHead (removePrior c k) k v m) with
          cur_size := (evictIfFull (insertAtHead (removePrior c k) k v m)).cur_size + 1 } := by
      unfold add
      rw [if_neg h0]
    have hbound1 : ids₁.length ≤ c.max_size := le_trans hlen1 h.bound_ok
    by_cases hfull : ((insertAtHead (removePrior c k) k v m).max_size : Int) ≤
        (insertAtHead (removePrior c k) k v m).cur_size
    · -- eviction occurs
      have hlen_eq : ids₁.length = c.max_size := by
        rw [hcur4, hcur1, hmax4, hmax1] at hfull
        have : c.max_size ≤ ids₁.length := by exact_mod_cast hfull
        omega
      have hne : ids₁ ≠ [] := by
        intro hnil
        rw [hnil] at hlen_eq
        exact h0 hlen_eq.symm
      obtain ⟨P, t, hP⟩ : ∃ P t, ids₁ = P ++ [t] := by
        rcases List.eq_nil_or_concat ids₁ with h' | ⟨P, t, h'⟩
        · exact absurd h' hne
        · exact ⟨P, t, by rw [h', List.concat_eq_append]⟩
      subst hP
      have hS4' : SInv (insertAtHead (removePrior c k) k v m)
          (((removePrior c k).arena.length :: P) ++ [t]) := by
        rw [List.cons_append]
        exact hS4
      have htail4 : (insertAtHead (removePrior c k) k v m).tail = some t := by
        rw [hS4.tail_ok, ← List.cons_append, List.getLast?_concat]
      obtain ⟨nt, hat, hpt, -, -, -⟩ := seg_split hS4'.seg_ok
      have hpt_ne : nt.prev ≠ some t := by
        rw [hpt]
        intro hcon
        obtain ⟨-, -, hiL, -, -⟩ := nodup_split hS4'.ids_nodup
        exact hiL (List.mem_of_getLast?_eq_some hcon)
      obtain ⟨hst, hcu, hmx, -, -⟩ := _remove_components hat hpt_ne
      have hevict : evictIfFull (insertAtHead (removePrior c k) k v m) =
          (insertAtHead (removePrior c k) k v m)._remove t := by
        unfold evictIfFull
        rw [if_pos hfull, htail4]
        exact evict_removes_last hS4'
      have hS5 : SInv ((insertAtHead (removePrior c k) k v m)._remove t)
          (((removePrior c k).arena.length :: P) ++ []) := remove_sinv hS4'
      rw [List.append_nil] at hS5
      refine ⟨(removePrior c k).arena.length :: P, ⟨?_, ?_, ?_⟩, ?_⟩
      · rw [heq, hevict]
        exact sinv_set_cur hS5 _
      · rw [heq, hevict]
        show (_ : Int) + 1 = _
        rw [hcu, hcur4, hcur1]
        simp only [List.length_append, List.length_cons, List.length_nil]
        push_cast
        omega
      · show ((removePrior c k).arena.length :: P).length ≤ _
        rw [heq, hevict, hmx, hmax4, hmax1]
        simp only [List.length_cons]
        have : (P ++ [t]).length = c.max_size := hlen_eq
        simp only [List.length_append, List.length_cons, List.length_nil] at this
        omega
      · rw [heq, hevict, hmx, hmax4, hmax1]
    · -- no eviction
      have hevict : evictIfFull (insertAtHead (removePrior c k) k v m) =
          insertAtHead (removePrior c k) k v m := by
        unfold evictIfFull
        rw [if_neg hfull]
      have hlt : ids₁.length < c.max_size := by
        rw [hcur4, hcur1, hmax4, hmax1] at hfull
        have : ¬(c.max_size ≤ ids₁.length) := fun hcon => hfull (by exact_mod_cast hcon)
        omega
      refine ⟨(removePrior c k).arena.length :: ids₁, ⟨?_, ?_, ?_⟩, ?_⟩
      · rw [heq, hevict]
        exact sinv_set_cur hS4 _
      · rw [heq, hevict]
        show (_ : Int) + 1 = _
        rw [hcur4, hcur1]
        simp only [List.length_cons]
        push_cast
        omega
      · show ((removePrior c k).arena.length :: ids₁).length ≤ _
        rw [heq, hevict, hmax4, hmax1]
        simp only [List.length_cons]
        omega
      · rw [heq, hevict, hmax4, hmax1]

/-- `get` preserves full well-formedness. -/
theorem get_inv {c : LRUCache K V M} {ids : List Nat} (h : Inv c ids)
    (nullv : V) (em : M) (k : K) :
    ∃ ids', Inv (c.get nullv em k).2 ids' ∧ ((c.get nullv em k).2).max_size = c.max_size := by
  unfold get
  cases hk : alookup c.store k with
  | none => exact ⟨ids, h, rfl⟩
  | some i =>
    dsimp only
    cases ha : c.arena[i]? with
    | none => exact ⟨ids, h, rfl⟩
    | some node =>
      dsimp only
      by_cases hh : c.head = some i
      · rw [if_pos hh]
        exact ⟨ids, h, rfl⟩
      · rw [if_neg hh]
        exact add_inv h k node.value em

/-- `clear` resets to the empty, well-formed state. -/
theorem clear_inv (c : LRUCache K V M) : Inv c.clear [] := by
  refine ⟨⟨rfl, rfl, rfl, List.nodup_nil, ?_, ?_, ?_, rfl⟩, rfl, Nat.zero_le _⟩
  · intro p hp
    exact absurd hp (List.not_mem_nil p)
  · intro x hx
    exact absurd hx (List.not_mem_nil x)
  · exact List.nodup_nil

/-- The freshly constructed cache is well-formed, with capacity `max_size.toNat`. -/
theorem mkCache_inv {cap : Int} {c : LRUCache K V M}
    (h : mkCache K V M cap = .ok c) : Inv c [] ∧ c.max_size = cap.toNat := by
  unfold mkCache at h
  by_cases hc : cap < 0
  · rw [if_pos hc] at h
    exact absurd h (by simp)
  · rw [if_neg hc] at h
    injection h with h
    subst h
    refine ⟨⟨⟨rfl, rfl, rfl, List.nodup_nil, ?_, ?_, List.nodup_nil, rfl⟩, rfl, Nat.zero_le _⟩, rfl⟩
    · intro p hp
      exact absurd hp (List.not_mem_nil p)
    · intro x hx
      exact absurd hx (List.not_mem_nil x)

theorem insert_store (c : LRUCache K V M) (k : K) (v : V) (m : M) :
    (insertAtHead c k v m).store = mapSet c.store k c.arena.length := by
  unfold insertAtHead
  dsimp only
  cases c.head <;> rfl

theorem insert_valueAt (c : LRUCache K V M) (k : K) (v : V) (m : M) (x : Nat)
    (hx : x < c.arena.length) :
    valueAt (insertAtHead c k v m).arena x = valueAt c.arena x := by
  unfold insertAtHead
  dsimp only
  cases c.head with
  | none =>
    dsimp only
    exact valueAt_append c.arena _ x hx
  | some hd =>
    dsimp only
    rw [valueAt_modIdx _ hd (fun n => { n with prev := some c.arena.length }) (fun n => rfl) x]
    exact valueAt_append c.arena _ x hx

/-- After any `add` on a well-formed non-disabled cache, the head entry carries the
new key, value and metadata, and the store maps the key to it. -/
theorem add_head_entry {c : LRUCache K V M} {ids : List Nat} (h : Inv c ids)
    (hpos : 0 < c.max_size) (k : K) (v : V) (m : M) :
    ∃ n, (c.add k v m).head = some n ∧ alookup (c.add k v m).store k = some n ∧
      ∃ node', (c.add k v m).arena[n]? = some node' ∧
        node'.key = k ∧ node'.value = v ∧ node'.metadata = m := by
  have h0 : ¬c.max_size = 0 := Nat.pos_iff_ne_zero.mp hpos
  obtain ⟨ids₁, hS1, hcur1, hlen1, hmax1, hk1⟩ := removePrior_inv h k
  obtain ⟨hS4, hcur4, hmax4, hnode4⟩ := insert_sinv v m hS1 hk1
  have heq : c.add k v m =
      { evictIfFull (insertAtHead (removePrior c k) k v m) with
        cur_size := (evictIfFull (insertAtHead (removePrior c k) k v m)).cur_size + 1 } := by
    unfold add
    rw [if_neg h0]
  have hkeyAt4 : keyAt (insertAtHead (removePrior c k) k v m).arena
      ((removePrior c k).arena.length) = some k := by
    unfold keyAt
    rw [hnode4]
    rfl
  have hvalAt4 : valueAt (insertAtHead (removePrior c k) k v m).arena
      ((removePrior c k).arena.length) = some v := by
    unfold valueAt
    rw [hnode4]
    rfl
  have hmetaAt4 : metaAt (insertAtHead (removePrior c k) k v m).arena
      ((removePrior c k).arena.length) = some m := by
    unfold metaAt
    rw [hnode4]
    rfl
  by_cases hfull : ((insertAtHead (removePrior c k) k v m).max_size : Int) ≤
      (insertAtHead (removePrior c k) k v m).cur_size
  · -- an eviction happens; it removes the chain's last node, not the new head
    have hlen_eq : ids₁.length = c.max_size := by
      rw [hcur4, hcur1, hmax4, hmax1] at hfull
      have h1 : c.max_size ≤ ids₁.length := by exact_mod_cast hfull
      have h2 : ids₁.length ≤ c.max_size := le_trans hlen1 h.bound_ok
      omega
    have hne : ids₁ ≠ [] := by
      intro hnil
      rw [hnil] at hlen_eq
      exact h0 hlen_eq.symm
    obtain ⟨P, t, hP⟩ : ∃ P t, ids₁ = P ++ [t] := by
      rcases List.eq_nil_or_concat ids₁ with h' | ⟨P, t, h'⟩
      · exact absurd h' hne
      · exact ⟨P, t, by rw [h', List.concat_eq_append]⟩
    subst hP
    have hS4' : SInv (insertAtHead (removePrior c k) k v m)
        (((removePrior c k).arena.length :: P) ++ [t]) := by
      rw [List.cons_append]
      exact hS4
    have htail4 : (insertAtHead (removePrior c k) k v m).tail = some t := by
      rw [hS4.tail_ok, ← List.cons_append, List.getLast?_concat]
    obtain ⟨nt, hat, hpt, -, -, -⟩ := seg_split hS4'.seg_ok
    have hpt_ne : nt.prev ≠ some t := by
      rw [hpt]
      intro hcon
      obtain ⟨-, -, hiL, -, -⟩ := nodup_split hS4'.ids_nodup
      exact hiL (List.mem_of_getLast?_eq_some hcon)
    obtain ⟨hst, hcu, hmx, hkeyp, hvalp, hmetap⟩ := _remove_components hat hpt_ne
    have hevict : evictIfFull (insertAtHead (removePrior c k) k v m) =
        (insertAtHead (removePrior c k) k v m)._remove t := by
      unfold evictIfFull
      rw [if_pos hfull, htail4]
      exact evict_removes_last hS4'
    have hS5 : SInv ((insertAtHead (removePrior c k) k v m)._remove t)
        (((removePrior c k).arena.length :: P) ++ []) := remove_sinv hS4'
    rw [List.append_nil] at hS5
    refine ⟨(removePrior c k).arena.length, ?_, ?_, ?_⟩
    · rw [heq, hevict]
      exact hS5.head_ok
    · rw [heq, hevict]
      obtain ⟨k', hk'1, hk'2⟩ := hS5.ids_sub _ (List.mem_cons_self _ _)
      rw [hkeyp, hkeyAt4] at hk'1
      injection hk'1 with hk'1
      rw [← hk'1] at hk'2
      exact hk'2
    · rw [heq, hevict]
      have hkey5 := (hkeyp ((removePrior c k).arena.length)).trans hkeyAt4
      have hval5 := (hvalp ((removePrior c k).arena.length)).trans hvalAt4
      have hmeta5 := (hmetap ((removePrior c k).arena.length)).trans hmetaAt4
      unfold keyAt at hkey5
      unfold valueAt at hval5
      unfold metaAt at hmeta5
      cases ha5 : ((insertAtHead (removePrior c k) k v m)._remove
          t).arena[(removePrior c k).arena.length]? with
      | none =>
        rw [ha5] at hkey5
        exact absurd hkey5 (by simp)
      | some node' =>
        rw [ha5] at hkey5 hval5 hmeta5
        simp only [Option.map_some'] at hkey5 hval5 hmeta5
        injection hkey5 with hkey5
        injection hval5 with hval5
        injection hmeta5 with hmeta5
        exact ⟨node', rfl, hkey5, hval5, hmeta5⟩
  · -- no eviction
    have hevict : evictIfFull (insertAtHead (removePrior c k) k v m) =
        insertAtHead (removePrior c k) k v m := by
      unfold evictIfFull
      rw [if_neg hfull]
    refine ⟨(removePrior c k).arena.length, ?_, ?_, ?_⟩
    · rw [heq, hevict]
      exact hS4.head_ok
    · rw [heq, hevict]
      obtain ⟨k', hk'1, hk'2⟩ := hS4.ids_sub _ (List.mem_cons_self _ _)
      rw [hkeyAt4] at hk'1
      injection hk'1 with hk'1
      rw [← hk'1] at hk'2
      exact hk'2
    · rw [heq, hevict]
      exact ⟨_, hnode4, rfl, rfl, rfl⟩

/-- Walking the recency chain of a well-formed cache recovers exactly its chain
listing. -/
theorem chain_eq {c : LRUCache K V M} {ids : List Nat} (h : SInv c ids) :
    chain c = ids := by
  have hlt := segb_mem_lt h.seg_ok
  have hlen : ids.length ≤ c.arena.length := by
    have hsub : ids.toFinset ⊆ Finset.range c.arena.length := by
      intro x hx
      rw [List.mem_toFinset] at hx
      exact Finset.mem_range.mpr (hlt x hx)
    have hcard := Finset.card_le_card hsub
    rw [Finset.card_range, List.toFinset_card_of_nodup h.ids_nodup] at hcard
    exact hcard
  unfold chain
  rw [h.head_ok]
  exact chainAux_eq ids none h.seg_ok _ (le_trans hlen (Nat.le_succ _))

/-- Establish well-formedness of a concrete cache state by computation: every
hypothesis is decidable, so `decide` can discharge them on closed instances. -/
theorem Inv.ofChecks {c : LRUCache K V M} {ids : List Nat}
    (h1 : segb c.arena none ids none = true)
    (h2 : c.head = ids.head?) (h3 : c.tail = ids.getLast?)
    (h4 : ids.Nodup)
    (h5 : c.store.all (fun p => decide (p.2 ∈ ids) && (keyAt c.arena p.2 == some p.1)) = true)
    (h6 : ids.all (fun i => ((keyAt c.arena i).bind (alookup c.store)) == some i) = true)
    (h7 : (c.store.map Prod.fst).Nodup)
    (h8 : c.store.length = ids.length)
    (h9 : c.cur_size = (ids.length : Int))
    (h10 : ids.length ≤ c.max_size) : Inv c ids := by
  refine ⟨⟨h1, h2, h3, h4, ?_, ?_, h7, h8⟩, h9, h10⟩
  · intro p hp
    have := (List.all_eq_true.mp h5) p hp
    rw [Bool.and_eq_true, decide_eq_true_eq, beq_iff_eq] at this
    exact this
  · intro i hi
    have := (List.all_eq_true.mp h6) i hi
    rw [beq_iff_eq] at this
    cases hk : keyAt c.arena i with
    | none => rw [hk] at this; exact absurd this (by simp)
    | some key =>
      rw [hk] at this
      simp only [Option.some_bind] at this
      exact ⟨key, rfl, this⟩

theorem runOps_inv {c : LRUCache K V M} {ids : List Nat} (h : Inv c ids)
    (nullv : V) (em : M) (ops : List (CacheOp K V M)) :
    ∃ ids', Inv (runOps nullv em c ops) ids' ∧
      (runOps nullv em c ops).max_size = c.max_size := by
  induction ops generalizing c ids with
  | nil => exact ⟨ids, h, rfl⟩
  | cons op rest ih =>
    show ∃ ids', Inv (runOps nullv em (runOp nullv em c op) rest) ids' ∧ _
    cases op with
    | get k =>
      obtain ⟨ids₂, h₂, hmax₂⟩ := get_inv h nullv em k
      obtain ⟨ids', h', hmax'⟩ := ih h₂
      exact ⟨ids', h', hmax'.trans hmax₂⟩
    | add k v m =>
      obtain ⟨ids₂, h₂, hmax₂⟩ := add_inv h k v m
      obtain ⟨ids', h', hmax'⟩ := ih h₂
      exact ⟨ids', h', hmax'.trans hmax₂⟩
    | clear =>
      obtain ⟨ids', h', hmax'⟩ := ih (clear_inv c)
      exact ⟨ids', h', hmax'⟩
    | has k => exact ih h
    | find p => exact ih h

end LRUCache

/-! ### Lemmas for the declaration parser -/

theorem space_cases {c : Char} (h : isSpaceChar c = true) :
    c = ' ' ∨ c = '\t' ∨ c = '\n' ∨ c = '\r' ∨ c = '\x0b' ∨ c = '\x0c' := by
  simp [isSpaceChar] at h
  tauto

theorem word_not_space {c : Char} (h : isWordChar c = true) : isSpaceChar c = false := by
  cases hx : isSpaceChar c
  · rfl
  · rcases space_cases hx with h1 | h1 | h1 | h1 | h1 | h1 <;> subst h1 <;>
      simp [isWordChar] at h

theorem word_ne_comma {c : Char} (h : isWordChar c = true) : c ≠ ',' := by
  intro he; subst he; simp [isWordChar] at h

theorem word_ne_close {c : Char} (h : isWordChar c = true) : c ≠ ')' := by
  intro he; subst he; simp [isWordChar] at h

theorem space_ne_comma {c : Char} (h : isSpaceChar c = true) : c ≠ ',' := by
  rcases space_cases h with h1 | h1 | h1 | h1 | h1 | h1 <;> subst h1 <;> decide

theorem space_ne_close {c : Char} (h : isSpaceChar c = true) : c ≠ ')' := by
  rcases space_cases h with h1 | h1 | h1 | h1 | h1 | h1 <;> subst h1 <;> decide

/-! ### takeWhile / dropWhile computation laws -/

theorem takeWhile_all_append {p : Char → Bool} {l : List Char} {x : Char}
    (r : List Char) (hl : ∀ c ∈ l, p c = true) (hx : p x = false) :
    (l ++ x :: r).takeWhile p = l := by
  induction l with
  | nil => simp [List.takeWhile, hx]
  | cons c l ih =>
    have hc := hl c (List.mem_cons_self c l)
    simp [List.takeWhile, hc]
    exact ih (fun d hd => hl d (List.mem_cons_of_mem c hd))

theorem dropWhile_all_append {p : Char → Bool} {a : List Char} (z : List Char)
    (ha : ∀ c ∈ a, p c = true) : (a ++ z).dropWhile p = z.dropWhile p := by
  induction a with
  | nil => rfl
  | cons c a ih =>
    have hc := ha c (List.mem_cons_self c a)
    simp [List.dropWhile, hc]
    exact ih (fun d hd => ha d (List.mem_cons_of_mem c hd))

theorem dropWhile_all_neg {p : Char → Bool} {u : List Char}
    (hu : ∀ c ∈ u, p c = false) : u.dropWhile p = u := by
  cases u with
  | nil => rfl
  | cons c u => simp [List.dropWhile, hu c (List.mem_cons_self c u)]

theorem dropWhile_ne_nil_append {p : Char → Bool} {u : List Char} (v : List Char)
    (hu : u.dropWhile p ≠ []) : (u ++ v).dropWhile p = u.dropWhile p ++ v := by
  induction u with
  | nil => exact absurd rfl hu
  | cons c u ih =>
    cases hc : p c with
    | true =>
      have hu' : u.dropWhile p ≠ [] := by
        simpa [List.dropWhile, hc] using hu
      simp [List.dropWhile, hc, ih hu']
    | false => simp [List.dropWhile, hc]

theorem dropWhile_ne_nil_of_any {p : Char → Bool} {u : List Char}
    (hu : u.any (fun c => !p c) = true) : u.dropWhile p ≠ [] := by
  induction u with
  | nil => simp at hu
  | cons c u ih =>
    cases hc : p c with
    | true =>
      have hu' : u.any (fun c => !p c) = true := by
        simpa [List.any_cons, hc] using hu
      simpa [List.dropWhile, hc] using ih hu'
    | false => simp [List.dropWhile, hc]

/-! ### `ltrim` / `rtrim` computation laws -/

theorem ltrim_ws_append {a : List Char} (z : List Char)
    (ha : ∀ c ∈ a, isSpaceChar c = true) : ltrim (a ++ z) = ltrim z :=
  dropWhile_all_append z ha

theorem ltrim_word_head {c : Char} (d z : List Char) (hc : isWordChar c = true) :
    ltrim (c :: d ++ z) = c :: d ++ z := by
  simp [ltrim, List.dropWhile, word_not_space hc]

theorem rtrim_ws_append {b : List Char} (y : List Char)
    (hb : ∀ c ∈ b, isSpaceChar c = true) : rtrim (y ++ b) = rtrim y := by
  unfold rtrim
  rw [List.reverse_append, dropWhile_all_append y.reverse
    (fun c hc => hb c (List.mem_reverse.mp hc))]

theorem rtrim_keep_append {g : List Char} (x : List Char)
    (hg : g.any (fun c => !isSpaceChar c) = true) : rtrim (x ++ g) = x ++ rtrim g := by
  unfold rtrim
  rw [List.reverse_append,
    dropWhile_ne_nil_append x.reverse
      (dropWhile_ne_nil_of_any (by simpa using hg)),
    List.reverse_append, List.reverse_reverse]

theorem rtrim_word {d : List Char} (hd : ∀ c ∈ d, isWordChar c = true) :
    rtrim d = d := by
  unfold rtrim
  rw [dropWhile_all_neg (fun c hc => word_not_space (hd c (List.mem_reverse.mp hc))),
    List.reverse_reverse]

/-- Every list of characters is its fully trimmed core surrounded by
whitespace. -/
theorem trim_decomp (p : List Char) :
    ∃ a b, p = a ++ (trimWS p ++ b) ∧
      (∀ c ∈ a, isSpaceChar c = true) ∧ (∀ c ∈ b, isSpaceChar c = true) := by
  refine ⟨p.takeWhile isSpaceChar, ((ltrim p).reverse.takeWhile isSpaceChar).reverse,
    ?_, fun c hc => List.mem_takeWhile_imp hc,
    fun c hc => List.mem_takeWhile_imp (List.mem_reverse.mp hc)⟩
  have h1 : p = p.takeWhile isSpaceChar ++ ltrim p :=
    (List.takeWhile_append_dropWhile isSpaceChar p).symm
  have h2 : ltrim p = trimWS p ++ ((ltrim p).reverse.takeWhile isSpaceChar).reverse := by
    have h3 : (ltrim p).reverse =
        (ltrim p).reverse.takeWhile isSpaceChar ++ (ltrim p).reverse.dropWhile isSpaceChar :=
      (List.takeWhile_append_dropWhile isSpaceChar (ltrim p).reverse).symm
    calc ltrim p = (ltrim p).reverse.reverse := by rw [List.reverse_reverse]
    _ = ((ltrim p).reverse.takeWhile isSpaceChar ++
          (ltrim p).reverse.dropWhile isSpaceChar).reverse := by rw [← h3]
    _ = trimWS p ++ ((ltrim p).reverse.takeWhile isSpaceChar).reverse := by
          rw [List.reverse_append]; rfl
  calc p = p.takeWhile isSpaceChar ++ ltrim p := h1
  _ = p.takeWhile isSpaceChar ++
        (trimWS p ++ ((ltrim p).reverse.takeWhile isSpaceChar).reverse) := by rw [← h2]

/-! ### `splitComma` and `glue` -/

theorem splitComma_ne_nil (s : List Char) : splitComma s ≠ [] := by
  cases s with
  | nil => simp [splitComma]
  | cons c rest =>
    by_cases hc : c = ','
    · simp [splitComma, hc]
    · cases h : splitComma rest with
      | nil => simp [splitComma, hc, h]
      | cons p ps => simp [splitComma, hc, h]

theorem mem_of_mem_splitComma {s : List Char} {p : List Char} {c : Char}
    (hp : p ∈ splitComma s) (hc : c ∈ p) : c ∈ s := by
  induction s generalizing p with
  | nil =>
    simp [splitComma] at hp; subst hp; simp at hc
  | cons x rest ih =>
    by_cases hx : x = ','
    · simp [splitComma, hx] at hp
      rcases hp with hp | hp
      · subst hp; simp at hc
      · exact List.mem_cons_of_mem x (ih hp hc)
    · cases h : splitComma rest with
      | nil => exact absurd h (splitComma_ne_nil rest)
      | cons q qs =>
        simp [splitComma, hx, h] at hp
        rcases hp with hp | hp
        · subst hp
          rcases List.mem_cons.mp hc with hcq | hcq
          · exact hcq ▸ List.mem_cons_self x rest
          · exact List.mem_cons_of_mem x (ih (h ▸ List.mem_cons_self q qs) hcq)
        · exact List.mem_cons_of_mem x (ih (h ▸ List.mem_cons_of_mem q hp) hc)

theorem comma_not_mem_splitComma {s : List Char} {p : List Char}
    (hp : p ∈ splitComma s) : ',' ∉ p := by
  induction s generalizing p with
  | nil => simp [splitComma] at hp; subst hp; simp
  | cons x rest ih =>
    by_cases hx : x = ','
    · simp [splitComma, hx] at hp
      rcases hp with hp | hp
      · subst hp; simp
      · exact ih hp
    · cases h : splitComma rest with
      | nil => exact absurd h (splitComma_ne_nil rest)
      | cons q qs =>
        simp [splitComma, hx, h] at hp
        rcases hp with hp | hp
        · subst hp
          intro hmem
          rcases List.mem_cons.mp hmem with hcq | hcq
          · exact hx hcq.symm
          · exact ih (h ▸ List.mem_cons_self q qs) hcq
        · exact ih (h ▸ List.mem_cons_of_mem q hp)

theorem splitComma_comma_free {p : List Char} (hp : ',' ∉ p) : splitComma p = [p] := by
  induction p with
  | nil => rfl
  | cons c rest ih =>
    have hc : ¬(c = ',') := fun he => hp (he ▸ List.mem_cons_self c rest)
    have hrest : ',' ∉ rest := fun hm => hp (List.mem_cons_of_mem c hm)
    simp [splitComma, hc, ih hrest]

theorem splitComma_append_comma {p : List Char} (z : List Char) (hp : ',' ∉ p) :
    splitComma (p ++ ',' :: z) = p :: splitComma z := by
  induction p with
  | nil => simp [splitComma]
  | cons c rest ih =>
    have hc : ¬(c = ',') := fun he => hp (he ▸ List.mem_cons_self c rest)
    have hrest : ',' ∉ rest := fun hm => hp (List.mem_cons_of_mem c hm)
    cases h : splitComma (rest ++ ',' :: z) with
    | nil => exact absurd h (splitComma_ne_nil _)
    | cons q qs =>
      have := ih hrest
      rw [h] at this
      have hq : q = rest := (List.cons.injEq .. ▸ this).1
      have hqs : qs = splitComma z := (List.cons.injEq .. ▸ this).2
      simp [splitComma, hc, h, hq, hqs]

theorem glue_cons_ne_nil {p : List Char} {ps : List (List Char)} (h : ps ≠ []) :
    glue (p :: ps) = p ++ ',' :: glue ps := by
  cases ps with
  | nil => exact absurd rfl h
  | cons q t => rfl

theorem glue_splitComma (s : List Char) : glue (splitComma s) = s := by
  induction s with
  | nil => rfl
  | cons x rest ih =>
    by_cases hx : x = ','
    · rw [show splitComma (x :: rest) = [] :: splitComma rest by simp [splitComma, hx],
        glue_cons_ne_nil (splitComma_ne_nil rest), ih, hx]
      rfl
    · cases h : splitComma rest with
      | nil => exact absurd h (splitComma_ne_nil rest)
      | cons q qs =>
        rw [show splitComma (x :: rest) = (x :: q) :: qs by simp [splitComma, hx, h]]
        cases qs with
        | nil =>
          have hq : q = rest := by rw [h] at ih; exact ih
          show x :: q = x :: rest
          rw [hq]
        | cons q2 t2 =>
          have hg : glue (q :: q2 :: t2) = rest := by rw [h] at ih; exact ih
          show (x :: q) ++ ',' :: glue (q2 :: t2) = x :: rest
          rw [List.cons_append,
            show q ++ ',' :: glue (q2 :: t2) = glue (q :: q2 :: t2) from rfl, hg]

theorem mem_glue {ps : List (List Char)} {p : List Char} {c : Char}
    (hp : p ∈ ps) (hc : c ∈ p) : c ∈ glue ps := by
  induction ps with
  | nil => simp at hp
  | cons q t ih =>
    cases t with
    | nil =>
      rcases List.mem_cons.mp hp with h | h
      · exact h ▸ hc
      · simp at h
    | cons q2 t2 =>
      rw [glue_cons_ne_nil (by simp)]
      rcases List.mem_cons.mp hp with h | h
      · exact List.mem_append_left _ (h ▸ hc)
      · exact List.mem_append_right _ (List.mem_cons_of_mem _ (ih h))

/-! ### Whitespace-padded names -/

theorem isNameB_iff {d : List Char} :
    isNameB d = true ↔ d ≠ [] ∧ ∀ c ∈ d, isWordChar c = true := by
  constructor
  · intro h
    have h1 := (Bool.and_eq_true _ _).mp h
    refine ⟨?_, List.all_eq_true.mp h1.2⟩
    intro he
    rw [he] at h1
    exact absurd h1.1 (by decide)
  · intro ⟨h1, h2⟩
    refine (Bool.and_eq_true _ _).mpr ⟨?_, List.all_eq_true.mpr h2⟩
    cases d with
    | nil => exact absurd rfl h1
    | cons c t => rfl

theorem ltrim_pad {a d : List Char} (x : List Char)
    (ha : ∀ c ∈ a, isSpaceChar c = true) (hd : isNameB d = true) :
    ltrim (a ++ (d ++ x)) = d ++ x := by
  rw [ltrim_ws_append _ ha]
  obtain ⟨hne, hw⟩ := isNameB_iff.mp hd
  cases d with
  | nil => exact absurd rfl hne
  | cons c d2 => exact ltrim_word_head d2 x (hw c (List.mem_cons_self c d2))

theorem rtrim_pad {a d b : List Char}
    (hb : ∀ c ∈ b, isSpaceChar c = true) (hd : isNameB d = true) :
    rtrim (a ++ (d ++ b)) = a ++ d := by
  rw [show a ++ (d ++ b) = (a ++ d) ++ b by rw [List.append_assoc],
    rtrim_ws_append _ hb]
  obtain ⟨hne, hw⟩ := isNameB_iff.mp hd
  have hany : d.any (fun c => !isSpaceChar c) = true := by
    cases d with
    | nil => exact absurd rfl hne
    | cons c d2 =>
      refine List.any_eq_true.mpr ⟨c, List.mem_cons_self c d2, ?_⟩
      simp [word_not_space (hw c (List.mem_cons_self c d2))]
  rw [rtrim_keep_append a hany, rtrim_word hw]

/-- The tail pieces of the JS comma split, applied to the glued form of pieces
that each trim to a plain name, recover exactly the trimmed pieces. -/
theorem adjTail_glue_trim :
    ∀ ps : List (List Char), ps ≠ [] →
      (∀ p ∈ ps, isNameB (trimWS p) = true ∧ ',' ∉ p) →
      adjTail (splitComma (rtrim (glue ps))) = ps.map trimWS := by
  intro ps
  induction ps with
  | nil => intro h; exact absurd rfl h
  | cons p t ih =>
    intro _ hall
    obtain ⟨hname, hcomma⟩ := hall p (List.mem_cons_self p t)
    obtain ⟨a, b, hp, ha, hb⟩ := trim_decomp p
    cases t with
    | nil =>
      show adjTail (splitComma (rtrim p)) = [trimWS p]
      generalize hdd : trimWS p = d at hp hname ⊢
      rw [hp, rtrim_pad hb hname]
      have hcf : ',' ∉ a ++ d := by
        intro hm
        rcases List.mem_append.mp hm with h | h
        · exact space_ne_comma (ha _ h) rfl
        · exact word_ne_comma ((isNameB_iff.mp hname).2 _ h) rfl
      rw [splitComma_comma_free hcf]
      show [ltrim (a ++ d)] = [d]
      rw [show a ++ d = a ++ (d ++ []) by simp, ltrim_pad [] ha hname]
      simp
    | cons q t2 =>
      obtain ⟨hnq, _⟩ := hall q (List.mem_cons_of_mem p (List.mem_cons_self q t2))
      obtain ⟨a2, b2, hq, ha2, hb2⟩ := trim_decomp q
      have hGany : (glue (q :: t2)).any (fun c => !isSpaceChar c) = true := by
        obtain ⟨hne2, hw2⟩ := isNameB_iff.mp hnq
        obtain ⟨c0, d2, hd2⟩ := List.exists_cons_of_ne_nil hne2
        have hc0q : c0 ∈ q := by rw [hq, hd2]; simp
        refine List.any_eq_true.mpr ⟨c0, mem_glue (List.mem_cons_self q t2) hc0q, ?_⟩
        simp [word_not_space (hw2 c0 (by rw [hd2]; simp))]
      rw [List.map_cons]
      generalize hdd : trimWS p = d at hp hname ⊢
      rw [glue_cons_ne_nil (by simp),
        show p ++ ',' :: glue (q :: t2) = (p ++ [',']) ++ glue (q :: t2) by simp,
        rtrim_keep_append _ hGany,
        show (p ++ [',']) ++ rtrim (glue (q :: t2)) =
          p ++ ',' :: rtrim (glue (q :: t2)) by simp,
        splitComma_append_comma _ hcomma]
      cases hz : splitComma (rtrim (glue (q :: t2))) with
      | nil => exact absurd hz (splitComma_ne_nil _)
      | cons z zs =>
        show ltrim (rtrim p) :: adjTail (z :: zs) = d :: (q :: t2).map trimWS
        have h1 : rtrim p = a ++ d := by rw [hp]; exact rtrim_pad hb hname
        have h2 : ltrim (a ++ d) = d := by
          rw [show a ++ d = a ++ (d ++ []) by simp, ltrim_pad [] ha hname]
          simp
        rw [h1, h2, ← hz, ih (by simp)
          (fun r hr => hall r (List.mem_cons_of_mem p hr))]

/-- On parenthesized content whose comma pieces each trim to a plain name, the
lazy-group extraction followed by the JS comma split returns exactly the trimmed
pieces. -/
theorem jsSplit_depsGroup {mid : List Char}
    (h : ∀ p ∈ splitComma mid, isNameB (trimWS p) = true) :
    jsSplitCommaWS (depsGroup mid) = (splitComma mid).map trimWS := by
  cases hps : splitComma mid with
  | nil => exact absurd hps (splitComma_ne_nil mid)
  | cons p0 rest =>
    have hall : ∀ p ∈ p0 :: rest, isNameB (trimWS p) = true ∧ ',' ∉ p := by
      intro p hp
      have hp' : p ∈ splitComma mid := hps ▸ hp
      exact ⟨h p hp', comma_not_mem_splitComma hp'⟩
    have hglue : glue (p0 :: rest) = mid := by rw [← hps]; exact glue_splitComma mid
    obtain ⟨hn0, hc0⟩ := hall p0 (List.mem_cons_self p0 rest)
    obtain ⟨a, b, hp0, ha, hb⟩ := trim_decomp p0
    have hanymid : mid.any (fun c => !isSpaceChar c) = true := by
      obtain ⟨hne0, hw0⟩ := isNameB_iff.mp hn0
      obtain ⟨c0, d0, hd0⟩ := List.exists_cons_of_ne_nil hne0
      have hc0p : c0 ∈ p0 := by rw [hp0, hd0]; simp
      have hc0m : c0 ∈ mid := by
        rw [← hglue]; exact mem_glue (List.mem_cons_self p0 rest) hc0p
      refine List.any_eq_true.mpr ⟨c0, hc0m, ?_⟩
      simp [word_not_space (hw0 c0 (by rw [hd0]; simp))]
    have hdg : depsGroup mid = trimWS mid := by
      unfold depsGroup; rw [if_pos hanymid]
    rw [hdg]
    cases rest with
    | nil =>
      have hmid : mid = p0 := by rw [← hglue]; rfl
      rw [List.map_cons, List.map_nil]
      generalize hdd : trimWS p0 = d at hp0 hn0 ⊢
      rw [hmid, hp0]
      have htm : trimWS (a ++ (d ++ b)) = d := by
        unfold trimWS
        rw [ltrim_pad b ha hn0, rtrim_ws_append _ hb,
          rtrim_word (isNameB_iff.mp hn0).2]
      rw [htm]
      have hcf : ',' ∉ d := fun hm => word_ne_comma ((isNameB_iff.mp hn0).2 _ hm) rfl
      unfold jsSplitCommaWS
      rw [splitComma_comma_free hcf]
    | cons q t2 =>
      have hmid : mid = p0 ++ ',' :: glue (q :: t2) := by
        rw [← hglue]; exact glue_cons_ne_nil (by simp)
      obtain ⟨hnq, _⟩ := hall q (List.mem_cons_of_mem p0 (List.mem_cons_self q t2))
      obtain ⟨a2, b2, hq, ha2, hb2⟩ := trim_decomp q
      have hGany : (glue (q :: t2)).any (fun c => !isSpaceChar c) = true := by
        obtain ⟨hne2, hw2⟩ := isNameB_iff.mp hnq
        obtain ⟨c0, d2, hd2⟩ := List.exists_cons_of_ne_nil hne2
        have hc0q : c0 ∈ q := by rw [hq, hd2]; simp
        refine List.any_eq_true.mpr ⟨c0, mem_glue (List.mem_cons_self q t2) hc0q, ?_⟩
        simp [word_not_space (hw2 c0 (by rw [hd2]; simp))]
      rw [List.map_cons]
      generalize hdd : trimWS p0 = d at hp0 hn0 ⊢
      rw [hmid, hp0]
      have htm : trimWS ((a ++ (d ++ b)) ++ ',' :: glue (q :: t2)) =
          (d ++ b) ++ ',' :: rtrim (glue (q :: t2)) := by
        unfold trimWS
        rw [show (a ++ (d ++ b)) ++ ',' :: glue (q :: t2) =
            a ++ (d ++ (b ++ ',' :: glue (q :: t2))) by simp,
          ltrim_pad _ ha hn0,
          show d ++ (b ++ ',' :: glue (q :: t2)) =
            (d ++ (b ++ [','])) ++ glue (q :: t2) by simp,
          rtrim_keep_append _ hGany]
        simp
      rw [htm]
      have hcf : ',' ∉ d ++ b := by
        intro hm
        rcases List.mem_append.mp hm with hx | hx
        · exact word_ne_comma ((isNameB_iff.mp hn0).2 _ hx) rfl
        · exact space_ne_comma (hb _ hx) rfl
      unfold jsSplitCommaWS
      rw [show (d ++ b) ++ ',' :: rtrim (glue (q :: t2)) =
          (d ++ b) ++ (',' :: rtrim (glue (q :: t2))) from rfl,
        splitComma_append_comma _ hcf]
      cases hz : splitComma (rtrim (glue (q :: t2))) with
      | nil => exact absurd hz (splitComma_ne_nil _)
      | cons z zs =>
        show rtrim (d ++ b) :: adjTail (z :: zs) = d :: (q :: t2).map trimWS
        have hr1 : rtrim (d ++ b) = d := by
          rw [rtrim_ws_append _ hb, rtrim_word (isNameB_iff.mp hn0).2]
        rw [hr1, ← hz, adjTail_glue_trim (q :: t2) (by simp)
          (fun r hr => hall r (List.mem_cons_of_mem p0 hr))]

/-- The unanchored alternative matches at the head of a grammar-shaped
declaration and captures the name and the lazy deps group. -/
theorem matchAlt2At_form {w mid : List Char}
    (hw : isNameB w = true) (hmid : mid ≠ []) (hnc : ∀ c ∈ mid, c ≠ ')') :
    matchAlt2At (w ++ '(' :: (mid ++ [')'])) = some (w, depsGroup mid) := by
  obtain ⟨hne, hword⟩ := isNameB_iff.mp hw
  have htw : (w ++ '(' :: (mid ++ [')'])).takeWhile isWordChar = w :=
    takeWhile_all_append _ hword (by decide)
  have hdrop : (w ++ '(' :: (mid ++ [')'])).drop w.length = '(' :: (mid ++ [')']) :=
    List.drop_left w _
  have hempty : w.isEmpty = false := by
    cases w with
    | nil => exact absurd rfl hne
    | cons c t => rfl
  have hcontent : (mid ++ [')']).takeWhile (fun ch => !(ch == ')')) = mid :=
    takeWhile_all_append _ (fun c hc => by simpa using hnc c hc) (by decide)
  have hmidempty : mid.isEmpty = false := by
    cases mid with
    | nil => exact absurd rfl hmid
    | cons c t => rfl
  simp only [matchAlt2At, htw, hdrop, hempty, hcontent, Bool.false_eq_true, if_false,
    List.length_append, List.length_cons, List.length_nil, hmidempty, Bool.not_false,
    Bool.and_true, if_true]
  rw [if_pos (by simp)]

/-- The scan for the unanchored alternative returns a match found at the head. -/
theorem scanAlt2_head {c : Char} {s : List Char} {m : List Char × List Char}
    (h : matchAlt2At (c :: s) = some m) : scanAlt2 (c :: s) = some m := by
  simp [scanAlt2, h]

/-- `_parse_declaration` on an explicit character list: the name-alone test is
`isNameB`, otherwise the unanchored scan decides. -/
theorem parse_decl_eq (s : List Char) :
    _parse_declaration (String.mk s) =
      (if isNameB s = true then Except.ok (String.mk s, ([] : List String))
       else
         match scanAlt2 s with
         | some (name, deps) =>
           .ok (String.mk name, (jsSplitCommaWS deps).map String.mk)
         | none =>
           .error ("Unable to parse dependency specification: " ++ String.mk s)) := rfl

/-- A plain `NAME` declaration parses to itself with no prerequisites. -/
theorem parse_name_alone {s : List Char} (h : isNameB s = true) :
    _parse_declaration (String.mk s) = .ok (String.mk s, []) := by
  rw [parse_decl_eq, if_pos h]

theorem mem_splitComma_of_mem {s : List Char} {c : Char} (hc : c ∈ s) :
    c = ',' ∨ ∃ p ∈ splitComma s, c ∈ p := by
  induction s with
  | nil => simp at hc
  | cons x rest ih =>
    by_cases hx : x = ','
    · rcases List.mem_cons.mp hc with h | h
      · exact Or.inl (h.trans hx)
      · rcases ih h with h2 | ⟨p, hp, hcp⟩
        · exact Or.inl h2
        · refine Or.inr ⟨p, ?_, hcp⟩
          rw [show splitComma (x :: rest) = [] :: splitComma rest by
            simp [splitComma, hx]]
          exact List.mem_cons_of_mem _ hp
    · cases hsp : splitComma rest with
      | nil => exact absurd hsp (splitComma_ne_nil rest)
      | cons q qs =>
        have hform : splitComma (x :: rest) = (x :: q) :: qs := by
          simp [splitComma, hx, hsp]
        rcases List.mem_cons.mp hc with h | h
        · exact Or.inr ⟨x :: q, hform ▸ List.mem_cons_self _ _,
            h ▸ List.mem_cons_self x q⟩
        · rcases ih h with h2 | ⟨p, hp, hcp⟩
          · exact Or.inl h2
          · rw [hsp] at hp
            rcases List.mem_cons.mp hp with hpq | hpq
            · exact Or.inr ⟨x :: q, hform ▸ List.mem_cons_self _ _,
                hpq ▸ List.mem_cons_of_mem x hcp⟩
            · exact Or.inr ⟨p, hform ▸ List.mem_cons_of_mem _ hpq, hcp⟩

/-! ### Options-object lemmas for the scheduler -/

section OptLemmas

variable [DecidableEq α]

theorem alookup_map_overwrite (m : List (α × β)) {k k2 : α} (v : β) (h : k ≠ k2) :
    alookup (m.map (fun p => if p.1 = k2 then (k2, v) else p)) k = alookup m k := by
  induction m with
  | nil => rfl
  | cons p rest ih =>
    by_cases hp : p.1 = k2
    · rw [List.map_cons, if_pos hp, alookup, alookup, if_neg (Ne.symm h),
        if_neg (fun he => h (he.symm.trans hp))]
      exact ih
    · rw [List.map_cons, if_neg hp, alookup, alookup]
      by_cases hq : p.1 = k
      · rw [if_pos hq, if_pos hq]
      · rw [if_neg hq, if_neg hq]
        exact ih

theorem alookup_mapSet_self (m : List (α × β)) (k : α) (v : β) :
    alookup (mapSet m k v) k = some v := by
  unfold mapSet
  cases h : alookup m k with
  | none =>
    rw [alookup_append, h]
    simp [alookup]
  | some w =>
    revert h
    induction m with
    | nil => intro h; simp [alookup] at h
    | cons p rest ih =>
      intro h
      by_cases hp : p.1 = k
      · simp [alookup, hp]
      · rw [alookup, if_neg hp] at h
        rw [List.map_cons, if_neg hp, alookup, if_neg hp]
        exact ih h

theorem alookup_mapSet_ne (m : List (α × β)) {k k2 : α} (v : β) (h : k ≠ k2) :
    alookup (mapSet m k2 v) k = alookup m k := by
  unfold mapSet
  cases h2 : alookup m k2 with
  | none =>
    rw [alookup_append]
    cases h3 : alookup m k with
    | none => simp [alookup, Ne.symm h]
    | some w => rfl
  | some w => exact alookup_map_overwrite m v h

end OptLemmas

theorem alookup_objAssign_absent {src : List (String × JsVal)}
    (t : List (String × JsVal)) {k : String} (h : alookup src k = none) :
    alookup (objAssign t src) k = alookup t k := by
  unfold objAssign
  revert h
  induction src generalizing t with
  | nil => intro h; rfl
  | cons p rest ih =>
    intro h
    rw [alookup] at h
    by_cases hp : p.1 = k
    · rw [if_pos hp] at h
      exact absurd h (by simp)
    · rw [if_neg hp] at h
      rw [List.foldl_cons, ih (mapSet t p.1 p.2) h, alookup_mapSet_ne t p.2 (Ne.symm hp)]

/-- When the shared options do not themselves carry `_provider_name`, the options
built for node `n` are marked with `n`. -/
theorem mkOptions_marker {shared : List (String × JsVal)}
    (hs : alookup shared "_provider_name" = none) (n : String) :
    markerOf (JsVal.vobj (mkOptions n shared)) = some n := by
  have h1 : alookup (mkOptions n shared) "_provider_name" = some (JsVal.vstr n) := by
    unfold mkOptions
    rw [alookup_objAssign_absent _ hs]
    rfl
  show (match alookup (mkOptions n shared) "_provider_name" with
        | some (JsVal.vstr s) => some s
        | _ => none) = some n
  rw [h1]

/-- Distinct nodes receive distinct options objects. -/
theorem mkOptions_ne {shared : List (String × JsVal)}
    (hs : alookup shared "_provider_name" = none) {n m : String} (h : n ≠ m) :
    mkOptions n shared ≠ mkOptions m shared := by
  intro he
  have h1 := mkOptions_marker hs n
  rw [show JsVal.vobj (mkOptions n shared) = JsVal.vobj (mkOptions m shared) by rw [he],
    mkOptions_marker hs m] at h1
  exact h (Option.some.inj h1).symm

/-- A provider that echoes its options shows that the scheduler hands node `q.1`
exactly `mkOptions q.1 shared`. -/
theorem schedule_echo (entities : List (String × Provider))
    (dag : List (String × List String)) (shared : List (String × JsVal))
    (hent : ∀ e ∈ entities, e.2 = echoProvider) :
    ∀ ord acc res, schedule entities dag shared ord acc = .ok res →
      ∀ q ∈ res, q ∈ acc ∨ q.2 = JsVal.vobj (mkOptions q.1 shared) := by
  intro ord
  induction ord with
  | nil =>
    intro acc res h q hq
    rw [schedule] at h
    injection h with h
    exact Or.inl (h ▸ hq)
  | cons name rest ih =>
    intro acc res h q hq
    rw [schedule] at h
    cases halo : alookup entities name with
    | none => rw [halo] at h; exact absurd h (by simp)
    | some provider =>
      rw [halo] at h
      rcases ih _ _ h q hq with hq2 | hq2
      · rcases List.mem_append.mp hq2 with h3 | h3
        · exact Or.inl h3
        · right
          rw [List.mem_singleton] at h3
          rw [h3]
          have hpe : provider = echoProvider := hent _ (alookup_mem halo)
          rw [hpe]
          rfl
      · exact Or.inr hq2

/-- The scheduler records one response per scheduled node, in scheduling order. -/
theorem schedule_keys (entities : List (String × Provider))
    (dag : List (String × List String)) (shared : List (String × JsVal)) :
    ∀ ord acc res, schedule entities dag shared ord acc = .ok res →
      res.map Prod.fst = acc.map Prod.fst ++ ord := by
  intro ord
  induction ord with
  | nil =>
    intro acc res h
    rw [schedule] at h
    injection h with h
    rw [← h, List.append_nil]
  | cons name rest ih =>
    intro acc res h
    rw [schedule] at h
    cases halo : alookup entities name with
    | none => rw [halo] at h; exact absurd h (by simp)
    | some provider =>
      rw [halo] at h
      rw [ih _ _ h]
      simp

/-! ### Topological-sort lemmas -/

section SortLemmas

variable [DecidableEq α]

theorem alookup_of_mem_nodup {m : List (α × β)} (hnd : (m.map Prod.fst).Nodup)
    {k : α} {v : β} (h : (k, v) ∈ m) : alookup m k = some v := by
  induction m with
  | nil => simp at h
  | cons p rest ih =>
    rw [List.map_cons, List.nodup_cons] at hnd
    rcases List.mem_cons.mp h with he | he
    · rw [← he]; simp [alookup]
    · rw [alookup]
      by_cases hp : p.1 = k
      · exfalso
        apply hnd.1
        rw [hp]
        exact List.mem_map.mpr ⟨(k, v), he, rfl⟩
      · rw [if_neg hp]
        exact ih hnd.2 he

theorem mapSet_keys_nodup {m : List (α × β)} (hnd : (m.map Prod.fst).Nodup)
    (k : α) (v : β) : ((mapSet m k v).map Prod.fst).Nodup := by
  unfold mapSet
  cases h : alookup m k with
  | some w =>
    have heq : (m.map (fun p => if p.1 = k then (k, v) else p)).map Prod.fst
        = m.map Prod.fst := by
      rw [List.map_map]
      refine List.map_congr_left ?_
      intro p hp
      by_cases hq : p.1 = k
      · simp [hq]
      · simp [hq]
    rw [heq]
    exact hnd
  | none =>
    have hk : k ∉ m.map Prod.fst := (alookup_eq_none_iff m k).mp h
    rw [List.map_append]
    simp [List.nodup_append, hnd, hk]

end SortLemmas

theorem buildDag_keys_nodup (parsed : List (String × List String)) :
    ((buildDag parsed).map Prod.fst).Nodup := by
  unfold buildDag
  have hgen : ∀ (acc : List (String × List String)), (acc.map Prod.fst).Nodup →
      ((parsed.foldl (fun acc p => mapSet acc p.1 p.2) acc).map Prod.fst).Nodup := by
    induction parsed with
    | nil => intro acc h; exact h
    | cons p rest ih =>
      intro acc h
      rw [List.foldl_cons]
      exact ih _ (mapSet_keys_nodup h p.1 p.2)
  exact hgen [] (by simp)

theorem pickReady_spec {keys placed : List String} :
    ∀ (l : List (String × List String)) (e : String × List String),
      pickReady keys placed l = some e →
      e ∈ l ∧ ∀ d ∈ e.2, d ∉ keys ∨ d ∈ placed := by
  intro l
  induction l with
  | nil => intro e h; exact absurd h (by simp [pickReady])
  | cons x rest ih =>
    intro e h
    rw [pickReady] at h
    by_cases hx : x.2.all (fun d => !(decide (d ∈ keys)) || decide (d ∈ placed)) = true
    · rw [if_pos hx] at h
      injection h with h
      subst h
      refine ⟨List.mem_cons_self x rest, ?_⟩
      intro d hd
      have h2 := List.all_eq_true.mp hx d hd
      simpa using h2
    · rw [if_neg hx] at h
      obtain ⟨h1, h2⟩ := ih e h
      exact ⟨List.mem_cons_of_mem x h1, h2⟩

/-- The key of a ripe node the graph declares a prerequisite edge into. -/
theorem directPre_target_key {dag : List (String × List String)} {p n : String}
    (h : directPre dag p n) : n ∈ dag.map Prod.fst := by
  obtain ⟨h1, _⟩ := h
  cases halo : alookup dag n with
  | none => rw [halo] at h1; simp at h1
  | some l => exact List.mem_map.mpr ⟨(n, l), alookup_mem halo, rfl⟩

/-- Invariant of the modelled Kahn loop: a node is placed only after all of its
declared in-graph prerequisites, and on success every node is placed. -/
theorem kahnGo_inv (dag : List (String × List String))
    (hnd : (dag.map Prod.fst).Nodup) :
    ∀ (fuel : Nat) (remaining : List (String × List String)) (placed result : List String),
      kahnGo (dag.map Prod.fst) fuel remaining placed = .ok result →
      remaining.Sublist dag →
      (∀ k ∈ placed, ∀ e ∈ remaining, e.1 ≠ k) →
      (∀ k ∈ dag.map Prod.fst, k ∈ placed ∨ ∃ e ∈ remaining, e.1 = k) →
      (∀ n ∈ placed, ∀ p, directPre dag p n →
        p ∈ placed ∧ placed.indexOf p < placed.indexOf n) →
      (∀ k ∈ dag.map Prod.fst, k ∈ result) ∧
      (∀ n ∈ result, ∀ p, directPre dag p n →
        p ∈ result ∧ result.indexOf p < result.indexOf n) := by
  intro fuel
  induction fuel with
  | zero =>
    intro remaining placed result hok hsub hdisj hcov hinv
    cases remaining with
    | nil =>
      rw [kahnGo] at hok
      injection hok with hok
      subst hok
      refine ⟨?_, hinv⟩
      intro k hk
      rcases hcov k hk with h | ⟨e, he, _⟩
      · exact h
      · simp at he
    | cons e0 rest =>
      rw [kahnGo] at hok
      exact absurd hok (by simp)
  | succ fuel ih =>
    intro remaining placed result hok hsub hdisj hcov hinv
    cases remaining with
    | nil =>
      rw [kahnGo] at hok
      injection hok with hok
      subst hok
      refine ⟨?_, hinv⟩
      intro k hk
      rcases hcov k hk with h | ⟨e, he, _⟩
      · exact h
      · simp at he
    | cons e0 rest =>
      rw [kahnGo] at hok
      cases hpick : pickReady (dag.map Prod.fst) placed (e0 :: rest) with
      | none =>
        rw [hpick] at hok
        exact absurd hok (by simp)
      | some e =>
        rw [hpick] at hok
        obtain ⟨hmem, hready⟩ := pickReady_spec (e0 :: rest) e hpick
        have hedag : e ∈ dag := hsub.subset hmem
        have halo : alookup dag e.1 = some e.2 :=
          alookup_of_mem_nodup hnd (by rw [Prod.mk.eta]; exact hedag)
        have hnotplaced : e.1 ∉ placed := by
          intro hp
          exact hdisj e.1 hp e hmem rfl
        have hsub2 : ((e0 :: rest).filter (fun p => p.1 ≠ e.1)).Sublist dag :=
          (List.filter_sublist _).trans hsub
        have hdisj2 : ∀ k ∈ placed ++ [e.1],
            ∀ e2 ∈ (e0 :: rest).filter (fun p => p.1 ≠ e.1), e2.1 ≠ k := by
          intro k hk e2 he2
          obtain ⟨he2m, he2p⟩ := List.mem_filter.mp he2
          rcases List.mem_append.mp hk with h | h
          · exact hdisj k h e2 he2m
          · rw [List.mem_singleton] at h
            subst h
            simpa using he2p
        have hcov2 : ∀ k ∈ dag.map Prod.fst, k ∈ placed ++ [e.1] ∨
            ∃ e2 ∈ (e0 :: rest).filter (fun p => p.1 ≠ e.1), e2.1 = k := by
          intro k hk
          rcases hcov k hk with h | ⟨e2, he2, he2k⟩
          · exact Or.inl (List.mem_append_left _ h)
          · by_cases hke : k = e.1
            · exact Or.inl (List.mem_append_right _ (by simp [hke]))
            · right
              refine ⟨e2, List.mem_filter.mpr ⟨he2, ?_⟩, he2k⟩
              simp [he2k, hke]
        have hinv2 : ∀ n ∈ placed ++ [e.1], ∀ p, directPre dag p n →
            p ∈ placed ++ [e.1] ∧
              (placed ++ [e.1]).indexOf p < (placed ++ [e.1]).indexOf n := by
          intro n hn p hdp
          rcases List.mem_append.mp hn with h | h
          · obtain ⟨hp1, hp2⟩ := hinv n h p hdp
            refine ⟨List.mem_append_left _ hp1, ?_⟩
            rw [List.indexOf_append_of_mem hp1, List.indexOf_append_of_mem h]
            exact hp2
          · rw [List.mem_singleton] at h
            subst h
            obtain ⟨hp1, hp2⟩ := hdp
            rw [halo] at hp1
            simp only [Option.getD_some] at hp1
            rcases hready p hp1 with h | h
            · exact absurd hp2 h
            · refine ⟨List.mem_append_left _ h, ?_⟩
              rw [List.indexOf_append_of_mem h,
                List.indexOf_append_of_not_mem hnotplaced]
              have hlt : placed.indexOf p < placed.length :=
                List.indexOf_lt_length.mpr h
              have hz : ([e.1].indexOf e.1) = 0 := by simp
              omega
        exact ih _ _ _ hok hsub2 hdisj2 hcov2 hinv2

/-! ## Claims about the recency cache -/

open LRUCache in
/-- C8: for every sequence of cache operations (construction with non-negative
capacity, `has`, `get`, `add`, `clear`, and `find` with a non-mutating predicate),
the number of entries in the key-lookup map equals the number of nodes reachable by
walking the recency chain from the head; head and tail are both empty exactly when
that count is 0; and the count never exceeds the capacity — so with capacity 0 no
entry is ever retained and `has` is always false. -/
theorem C8_cache_invariants {K V M : Type} [DecidableEq K]
    {cap : Int} {c0 : LRUCache K V M} (h0 : mkCache K V M cap = .ok c0)
    (nullv : V) (em : M) (ops : List (CacheOp K V M)) :
    (runOps nullv em c0 ops).store.length = (chain (runOps nullv em c0 ops)).length ∧
      (((runOps nullv em c0 ops).head = none ∧ (runOps nullv em c0 ops).tail = none) ↔
        (runOps nullv em c0 ops).store.length = 0) ∧
      (runOps nullv em c0 ops).store.length ≤ (runOps nullv em c0 ops).max_size ∧
      (cap = 0 → ∀ k, (runOps nullv em c0 ops).has k = false) := by
  obtain ⟨hInv0, hmax0⟩ := mkCache_inv h0
  obtain ⟨ids, hInv, hmax⟩ := runOps_inv hInv0 nullv em ops
  have hchain : chain (runOps nullv em c0 ops) = ids := chain_eq hInv.toSInv
  have hlen : (runOps nullv em c0 ops).store.length = ids.length := hInv.store_len
  refine ⟨by rw [hlen, hchain], ?_, ?_, ?_⟩
  · constructor
    · rintro ⟨hh, -⟩
      rw [hInv.head_ok] at hh
      rw [hlen, List.head?_eq_none_iff.mp hh]
      rfl
    · intro hz
      rw [hlen] at hz
      have hnil : ids = [] := List.length_eq_zero.mp hz
      rw [hInv.head_ok, hInv.tail_ok, hnil]
      exact ⟨rfl, rfl⟩
  · exact hlen ▸ hInv.bound_ok
  · intro hcap k
    have hmax' : (runOps nullv em c0 ops).max_size = 0 := by
      rw [hmax, hmax0, hcap]
      rfl
    have hnil : ids = [] := by
      have := hInv.bound_ok
      rw [hmax'] at this
      exact List.eq_nil_of_length_eq_zero (Nat.le_zero.mp this)
    have hstore : (runOps nullv em c0 ops).store = [] := by
      apply List.eq_nil_of_length_eq_zero
      rw [hlen, hnil]
      rfl
    unfold has
    rw [hstore]
    rfl

open LRUCache CacheOp in
/-- Witness for C8 at a concrete instance: capacity-0 cache, a short session. -/
theorem C8_cache_invariants_witness :
    mkCache Nat Nat Nat 0 = .ok zeroStart ∧
      ((runOps 0 0 zeroStart [add 1 5 0, get 1, clear, has 1]).store.length =
          (chain (runOps 0 0 zeroStart [add 1 5 0, get 1, clear, has 1])).length ∧
        (((runOps 0 0 zeroStart [add 1 5 0, get 1, clear, has 1]).head = none ∧
            (runOps 0 0 zeroStart [add 1 5 0, get 1, clear, has 1]).tail = none) ↔
          (runOps 0 0 zeroStart [add 1 5 0, get 1, clear, has 1]).store.length = 0) ∧
        (runOps 0 0 zeroStart [add 1 5 0, get 1, clear, has 1]).store.length ≤
          (runOps 0 0 zeroStart [add 1 5 0, get 1, clear, has 1]).max_size ∧
        ((0 : Int) = 0 → ∀ k,
          (runOps 0 0 zeroStart [add 1 5 0, get 1, clear, has 1]).has k = false)) :=
  ⟨rfl, C8_cache_invariants (by rfl) 0 0 [add 1 5 0, get 1, clear, has 1]⟩

open LRUCache in
/-- C10: on a well-formed cache whose entry count equals its positive capacity,
`add` with a key that is already present evicts nothing: the key's entry is
replaced and moved to the head, every other key remains present with its value
unchanged, and the entry count is unchanged. -/
theorem C10_add_existing_no_eviction {K V M : Type} [DecidableEq K]
    {c : LRUCache K V M} {ids : List Nat} (h : Inv c ids) {k : K} {i : Nat}
    (hk : alookup c.store k = some i)
    (hsize : c.cur_size = (c.max_size : Int)) (hpos : 0 < c.max_size)
    (v : V) (m : M) :
    (c.add k v m).store.length = c.store.length ∧
      (∃ n, (c.add k v m).head = some n ∧ alookup (c.add k v m).store k = some n ∧
        ∃ node', (c.add k v m).arena[n]? = some node' ∧
          node'.key = k ∧ node'.value = v ∧ node'.metadata = m) ∧
      (∀ k', k' ≠ k → alookup (c.add k v m).store k' = alookup c.store k' ∧
        (∀ j, alookup c.store k' = some j →
          valueAt (c.add k v m).arena j = valueAt c.arena j)) := by
  have h0 : ¬c.max_size = 0 := Nat.pos_iff_ne_zero.mp hpos
  obtain ⟨L, R, node, hids, ha, hkey⟩ := lookup_split h.toSInv hk
  have heq1 : removePrior c k = c._remove i := by unfold removePrior; rw [hk]
  have hpi : node.prev ≠ some i := by
    obtain ⟨node', ha', hprev, -, -, -⟩ := seg_split (hids ▸ h.seg_ok)
    rw [ha] at ha'
    injection ha' with ha'
    subst ha'
    rw [hprev]
    intro hcon
    obtain ⟨-, -, hiL, -, -⟩ := nodup_split (hids ▸ h.ids_nodup)
    exact hiL (List.mem_of_getLast?_eq_some hcon)
  obtain ⟨hstore1, hcur1, hmax1, hkeyp1, hvalp1, hmetap1⟩ := _remove_components ha hpi
  have hS1 : SInv (removePrior c k) (L ++ R) := by
    rw [heq1]
    exact remove_sinv (hids ▸ h.toSInv)
  have hk1 : alookup (removePrior c k).store k = none := by
    rw [heq1, hstore1, hkey, alookup_mapDelete, if_pos rfl]
  obtain ⟨hS4, hcur4, hmax4, hnode4⟩ := insert_sinv v m hS1 hk1
  have hnoevict : ¬(((insertAtHead (removePrior c k) k v m).max_size : Int) ≤
      (insertAtHead (removePrior c k) k v m).cur_size) := by
    rw [hcur4, hmax4, heq1, hcur1, hmax1, hsize]
    intro hcon
    have : (1 : Int) ≤ (c.max_size : Int) := by exact_mod_cast hpos
    omega
  have heq : c.add k v m =
      { insertAtHead (removePrior c k) k v m with
        cur_size := (insertAtHead (removePrior c k) k v m).cur_size + 1 } := by
    unfold add
    rw [if_neg h0]
    have : evictIfFull (insertAtHead (removePrior c k) k v m) =
        insertAtHead (removePrior c k) k v m := by
      unfold evictIfFull
      rw [if_neg hnoevict]
    rw [this]
  have hstore4 : (insertAtHead (removePrior c k) k v m).store =
      (removePrior c k).store ++ [(k, (removePrior c k).arena.length)] := by
    rw [insert_store, mapSet_of_absent hk1]
  refine ⟨?_, ?_, ?_⟩
  · -- entry count unchanged
    rw [heq]
    show (insertAtHead (removePrior c k) k v m).store.length = _
    rw [hstore4, List.length_append, heq1, hstore1, hkey]
    have := mapDelete_length h.store_keys_nodup hk
    simp only [List.length_cons, List.length_nil]
    omega
  · exact add_head_entry h hpos k v m
  · intro k' hk'
    have hlook : alookup (c.add k v m).store k' = alookup c.store k' := by
      rw [heq]
      show alookup (insertAtHead (removePrior c k) k v m).store k' = _
      rw [hstore4, alookup_append, heq1, hstore1, hkey, alookup_mapDelete, if_neg hk']
      have hsing : ∀ n : Nat, alookup [(k, n)] k' = none := by
        intro n
        unfold alookup
        rw [if_neg (fun hc => hk' hc.symm)]
        rfl
      rw [hsing, Option.or_none]
    refine ⟨hlook, ?_⟩
    intro j hj
    have hj_mem : j ∈ ids ∧ keyAt c.arena j = some k' := h.store_sub (k', j) (alookup_mem hj)
    have hji : j ≠ i := by
      intro hcon
      rw [hcon] at hj_mem
      have : keyAt c.arena i = some k := by
        unfold keyAt
        rw [ha, Option.map_some', hkey]
      rw [this] at hj_mem
      injection hj_mem.2 with hc
      exact hk' hc.symm
    have hjLR : j ∈ L ++ R := by
      have := hids ▸ hj_mem.1
      rcases List.mem_append.mp this with hm | hm
      · exact List.mem_append_left _ hm
      · rcases List.mem_cons.mp hm with hm | hm
        · exact absurd hm hji
        · exact List.mem_append_right _ hm
    have hjlt : j < (removePrior c k).arena.length := segb_mem_lt hS1.seg_ok j hjLR
    rw [heq]
    show valueAt (insertAtHead (removePrior c k) k v m).arena j = _
    rw [insert_valueAt (removePrior c k) k v m j hjlt, heq1, hvalp1]

open LRUCache in
/-- Witness for C10: a full capacity-2 cache holding keys 1 and 2; re-adding key 1
with a new value evicts nothing. -/
theorem C10_add_existing_no_eviction_witness :
    (demoFull.add 1 99 5).store.length = demoFull.store.length ∧
      (∃ n, (demoFull.add 1 99 5).head = some n ∧
        alookup (demoFull.add 1 99 5).store 1 = some n ∧
        ∃ node', (demoFull.add 1 99 5).arena[n]? = some node' ∧
          node'.key = 1 ∧ node'.value = 99 ∧ node'.metadata = 5) ∧
      (∀ k', k' ≠ 1 → alookup (demoFull.add 1 99 5).store k' = alookup demoFull.store k' ∧
        (∀ j, alookup demoFull.store k' = some j →
          valueAt (demoFull.add 1 99 5).arena j = valueAt demoFull.arena j)) :=
  C10_add_existing_no_eviction
    (show Inv demoFull [1, 0] from
      Inv.ofChecks (by decide) (by decide) (by decide) (by decide) (by decide) (by decide)
        (by decide) (by decide) (by decide) (by decide))
    (show alookup demoFull.store 1 = some 0 by decide) (by decide) (by decide) 99 5

open LRUCache in
/-- C5 counterexample: key 1 was added with metadata 7; after `add(2, ...)` and a
promoting `get(1)`, the entry for key 1 carries the default metadata 0 instead of
the metadata 7 it was added with — the claim's "same metadata" fails, because the
source call `this.add(key, cached.value)` omits the metadata argument. -/
theorem C5_promotion_metadata_counterexample :
    metadataOf demoFull 1 = some 7 ∧
      metadataOf (demoFull.get 0 0 1).2 1 = some 0 ∧
      ¬metadataOf (demoFull.get 0 0 1).2 1 = some 7 := by decide

open LRUCache in
/-- C5 amended: `get` on a present key returns the stored value; if the entry is
already the head the cache is unchanged, and otherwise the entry is re-promoted to
the head as a fresh insertion with the same key and the same value but with the
*default empty* metadata — the metadata it was added with is discarded. -/
theorem C5_get_promotes_default_metadata {K V M : Type} [DecidableEq K]
    {c : LRUCache K V M} {ids : List Nat} (h : Inv c ids)
    (nullv : V) (em : M) {k : K} {i : Nat} {node : LLNode K V M}
    (hk : alookup c.store k = some i) (ha : c.arena[i]? = some node) :
    (c.get nullv em k).1 = node.value ∧
      (c.head = some i → (c.get nullv em k).2 = c) ∧
      (c.head ≠ some i → ∃ n, (c.get nullv em k).2.head = some n ∧
        alookup (c.get nullv em k).2.store k = some n ∧
        ∃ node', (c.get nullv em k).2.arena[n]? = some node' ∧
          node'.key = k ∧ node'.value = node.value ∧ node'.metadata = em) := by
  have hpos : 0 < c.max_size := by
    have hmem : i ∈ ids := (h.store_sub (k, i) (alookup_mem hk)).1
    have hne : ids ≠ [] := by
      intro hnil
      rw [hnil] at hmem
      exact absurd hmem (List.not_mem_nil i)
    exact lt_of_lt_of_le (List.length_pos.mpr hne) h.bound_ok
  unfold LRUCache.get
  rw [hk]
  dsimp only
  rw [ha]
  dsimp only
  by_cases hh : c.head = some i
  · rw [if_pos hh]
    exact ⟨rfl, fun _ => rfl, fun hcon => absurd hh hcon⟩
  · rw [if_neg hh]
    exact ⟨rfl, fun hcon => absurd hcon hh, fun _ => add_head_entry h hpos k node.value em⟩

open LRUCache in
/-- Witness for the amended C5 on the concrete full cache: `get(1)` returns the
stored value 10 and promotes key 1 to the head with default metadata. -/
theorem C5_get_promotes_default_metadata_witness :
    (demoFull.get 0 0 1).1 = 10 ∧
      (demoFull.head = some 0 → (demoFull.get 0 0 1).2 = demoFull) ∧
      (demoFull.head ≠ some 0 → ∃ n, (demoFull.get 0 0 1).2.head = some n ∧
        alookup (demoFull.get 0 0 1).2.store 1 = some n ∧
        ∃ node', (demoFull.get 0 0 1).2.arena[n]? = some node' ∧
          node'.key = 1 ∧ node'.value = 10 ∧ node'.metadata = 0) :=
  C5_get_promotes_default_metadata
    (show Inv demoFull [1, 0] from
      Inv.ofChecks (by decide) (by decide) (by decide) (by decide) (by decide) (by decide)
        (by decide) (by decide) (by decide) (by decide))
    0 0 (show alookup demoFull.store 1 = some 0 by decide)
    (show demoFull.arena[0]? =
      some { key := 1, value := 10, metadata := 7, prev := some 1, next := none } by decide)

open LRUCache in
/-- C6 counterexample: a legitimately cached JS `null` (modelled as `none`) is
indistinguishable from a miss: `get` returns `null` in both cases, although `has`
distinguishes the two keys. -/
theorem C6_null_conflated_counterexample :
    ((nullStart.add 1 none 0).get none 0 1).1 = ((nullStart.add 1 none 0).get none 0 2).1 ∧
      (nullStart.add 1 none 0).has 1 = true ∧
      (nullStart.add 1 none 0).has 2 = false := by decide

open LRUCache in
/-- C6 amended: `get` on an absent key returns the JS literal `null` and leaves
the cache unchanged, while `get` on a present key returns the stored value as-is;
hence the miss result is distinguishable from a stored value exactly when that
value is not `null` — a legitimately cached `null` is conflated with a miss. -/
theorem C6_get_miss_returns_null {K V M : Type} [DecidableEq K]
    (c : LRUCache K V M) (nullv : V) (em : M) (k : K) :
    (alookup c.store k = none → c.get nullv em k = (nullv, c)) ∧
      (∀ i node, alookup c.store k = some i → c.arena[i]? = some node →
        ((c.get nullv em k).1 = node.value ∧
          (node.value ≠ nullv → (c.get nullv em k).1 ≠ nullv))) := by
  constructor
  · intro hk
    unfold LRUCache.get
    rw [hk]
  · intro i node hk ha
    have hval : (c.get nullv em k).1 = node.value := by
      unfold LRUCache.get
      rw [hk]
      dsimp only
      rw [ha]
      dsimp only
      by_cases hh : c.head = some i
      · rw [if_pos hh]
      · rw [if_neg hh]
    exact ⟨hval, fun hne => hval ▸ hne⟩

open LRUCache in
/-- Witness for the amended C6 on a concrete cache: `get` on the absent key 2
returns `null` without touching the state, and `get` on the present key 1 returns
its stored (non-null) value. -/
theorem C6_get_miss_returns_null_witness :
    (alookup (nullStart.add 1 (some 10) 0).store 2 = none →
      (nullStart.add 1 (some 10) 0).get none 0 2 = (none, nullStart.add 1 (some 10) 0)) ∧
      (∀ i node, alookup (nullStart.add 1 (some 10) 0).store 2 = some i →
        (nullStart.add 1 (some 10) 0).arena[i]? = some node →
        (((nullStart.add 1 (some 10) 0).get none 0 2).1 = node.value ∧
          (node.value ≠ none → ((nullStart.add 1 (some 10) 0).get none 0 2).1 ≠ none))) :=
  C6_get_miss_returns_null (nullStart.add 1 (some 10) 0) none 0 2

/-- C7 (amended): every string of the declaration grammar parses, to the
declared name and its trimmed prerequisites in order. -/
theorem C7_grammar_strings_parse (s : List Char) (h : specGrammarMatch s = true) :
    (isNameB s = true ∧ _parse_declaration (String.mk s) = .ok (String.mk s, [])) ∨
    (∃ mid, s = s.takeWhile isWordChar ++ '(' :: (mid ++ [')']) ∧
      _parse_declaration (String.mk s) =
        .ok (String.mk (s.takeWhile isWordChar),
          ((splitComma mid).map trimWS).map String.mk)) := by
  by_cases hn : isNameB s = true
  · exact Or.inl ⟨hn, parse_name_alone hn⟩
  · have hn' : isNameB s = false := by
      cases hx : isNameB s
      · rfl
      · exact absurd hx hn
    right
    unfold specGrammarMatch at h
    rw [hn', Bool.false_or] at h
    simp only at h
    rw [Bool.and_eq_true] at h
    obtain ⟨h1, h2⟩ := h
    generalize hgw : s.takeWhile isWordChar = w at h1 h2 ⊢
    cases hd : s.drop w.length with
    | nil => rw [hd] at h2; exact absurd h2 (by simp)
    | cons c r =>
      rw [hd] at h2
      split at h2
      next r2 heqa =>
        split at h2
        next midrev heqb =>
          injection heqa with hc hr
          subst hc
          subst hr
          have hr2 : r = midrev.reverse ++ [')'] := by
            have h3 := congrArg List.reverse heqb
            simpa using h3
          have hpre : w <+: s :=
            hgw ▸ (List.takeWhile_prefix isWordChar : s.takeWhile isWordChar <+: s)
          obtain ⟨t, ht⟩ := hpre
          have hdt : s.drop w.length = t := by
            have h4 := List.drop_left w t
            rw [ht] at h4
            exact h4
          have hts : t = '(' :: r := by rw [← hdt]; exact hd
          have hs : s = w ++ '(' :: (midrev.reverse ++ [')']) := by
            conv_lhs => rw [← ht]
            rw [hts, hr2]
          have hpieces : ∀ p ∈ splitComma midrev.reverse, isNameB (trimWS p) = true :=
            fun p hp => List.all_eq_true.mp h2 p hp
          have hmidne : midrev.reverse ≠ [] := by
            intro he
            rw [he] at h2
            simp [splitComma, trimWS, ltrim, rtrim, isNameB] at h2
          have hnc : ∀ ch ∈ midrev.reverse, ch ≠ ')' := by
            intro ch hch
            rcases mem_splitComma_of_mem hch with he | ⟨p, hp, hcp⟩
            · exact he ▸ (by decide)
            · have hnp := hpieces p hp
              obtain ⟨a, b, hpd, ha, hb⟩ := trim_decomp p
              rw [hpd] at hcp
              rcases List.mem_append.mp hcp with hx | hx
              · exact space_ne_close (ha _ hx)
              · rcases List.mem_append.mp hx with hy | hy
                · exact word_ne_close ((isNameB_iff.mp hnp).2 _ hy)
                · exact space_ne_close (hb _ hy)
          have hwname : isNameB w = true := by
            refine isNameB_iff.mpr ⟨?_, fun c hc => List.mem_takeWhile_imp
              (by rw [hgw]; exact hc)⟩
            intro he
            rw [he] at h1
            simp at h1
          refine ⟨midrev.reverse, hs, ?_⟩
          rw [parse_decl_eq, if_neg (by simp [hn'])]
          obtain ⟨hwne, hww⟩ := isNameB_iff.mp hwname
          obtain ⟨c0, w2, hw2⟩ := List.exists_cons_of_ne_nil hwne
          have hm := matchAlt2At_form hwname hmidne hnc
          have hscan : scanAlt2 s = some (w, depsGroup midrev.reverse) := by
            rw [hs, hw2, List.cons_append]
            apply scanAlt2_head
            rw [← List.cons_append, ← hw2]
            exact hm
          rw [hscan]
          show Except.ok (String.mk w,
            (jsSplitCommaWS (depsGroup midrev.reverse)).map String.mk) = _
          rw [jsSplit_depsGroup hpieces]
        next => exact absurd h2 (by simp)
      next hne2 => exact absurd h2 (by simp)

/-- C7 counterexample: `a(b-c)` is not in the spec's grammar (`b-c` is not a
`NAME`), yet the parser accepts it — the second alternative never validates the
prerequisite characters. -/
theorem C7_unanchored_counterexample :
    _parse_declaration "a(b-c)" = .ok ("a", ["b-c"]) ∧
      specGrammarMatch ("a(b-c)".data) = false := by
  constructor
  · rfl
  · decide

theorem C7_grammar_strings_parse_witness :
    specGrammarMatch ("a( b ,c )".data) = true ∧
    ((isNameB ("a( b ,c )".data) = true ∧
        _parse_declaration (String.mk ("a( b ,c )".data)) =
          .ok (String.mk ("a( b ,c )".data), [])) ∨
     (∃ mid, "a( b ,c )".data =
          ("a( b ,c )".data).takeWhile isWordChar ++ '(' :: (mid ++ [')']) ∧
        _parse_declaration (String.mk ("a( b ,c )".data)) =
          .ok (String.mk (("a( b ,c )".data).takeWhile isWordChar),
            ((splitComma mid).map trimWS).map String.mk))) :=
  ⟨by decide, C7_grammar_strings_parse ("a( b ,c )".data) (by decide)⟩

/-- C9 (amended): when the shared options do not themselves contain the
`_provider_name` key, every node's options object carries a marker identifying
that node, distinct nodes get distinct (fresh) options values, and a scheduler
run over echoing providers observes exactly `mkOptions q.1 shared` at each node.
The unconditional form of the claim is false: a shared `_provider_name` entry
overwrites the marker (see the counterexample). -/
theorem C9_options_distinct_marked (shared : List (String × JsVal))
    (hs : alookup shared "_provider_name" = none) :
    (∀ n : String, markerOf (JsVal.vobj (mkOptions n shared)) = some n) ∧
    (∀ n m : String, n ≠ m → mkOptions n shared ≠ mkOptions m shared) ∧
    (∀ (entities : List (String × Provider)) (dag : List (String × List String))
        (ord : List String) (acc res : List (String × JsVal)),
      (∀ e ∈ entities, e.2 = echoProvider) →
      schedule entities dag shared ord acc = .ok res →
      ∀ q ∈ res, q ∈ acc ∨ q.2 = JsVal.vobj (mkOptions q.1 shared)) :=
  ⟨fun n => mkOptions_marker hs n,
   fun _ _ h => mkOptions_ne hs h,
   fun entities dag ord acc res hent h =>
     schedule_echo entities dag shared hent ord acc res h⟩

theorem C9_options_distinct_marked_witness :
    alookup [("timeout", JsVal.vnum 5)] "_provider_name" = none ∧
    ((∀ n : String,
        markerOf (JsVal.vobj (mkOptions n [("timeout", JsVal.vnum 5)])) = some n) ∧
     (∀ n m : String, n ≠ m →
        mkOptions n [("timeout", JsVal.vnum 5)] ≠ mkOptions m [("timeout", JsVal.vnum 5)]) ∧
     (∀ (entities : List (String × Provider)) (dag : List (String × List String))
         (ord : List String) (acc res : List (String × JsVal)),
       (∀ e ∈ entities, e.2 = echoProvider) →
       schedule entities dag [("timeout", JsVal.vnum 5)] ord acc = .ok res →
       ∀ q ∈ res, q ∈ acc ∨
         q.2 = JsVal.vobj (mkOptions q.1 [("timeout", JsVal.vnum 5)]))) :=
  ⟨rfl, C9_options_distinct_marked [("timeout", JsVal.vnum 5)] rfl⟩

/-- C9 counterexample: a shared `_provider_name` entry overwrites the per-node
marker — the provider for node `a` receives options naming `zzz`, not `a`. -/
theorem C9_shared_overwrites_marker_counterexample :
    getLinkedData [("_provider_name", JsVal.vstr "zzz")] [("a", echoProvider)] ["a"] true
      = .ok (JsVal.vobj [("_provider_name", JsVal.vstr "zzz")]) ∧
    markerOf (JsVal.vobj (mkOptions "a" [("_provider_name", JsVal.vstr "zzz")]))
      = some "zzz" ∧
    ("zzz" : String) ≠ "a" :=
  ⟨rfl, rfl, by decide⟩

/-- C4: on a non-empty declaration list, a successful `getLinkedData` run parses
every declaration, sorts the graph, schedules one response per node in that
order, and settles to the last response (consolidate) or to the ordered list of
all responses. -/
theorem C4_consolidate_semantics {shared : List (String × JsVal)}
    {entities : List (String × Provider)} {dependencies : List String}
    {consolidate : Bool} {v : JsVal}
    (hne : dependencies ≠ [])
    (hok : getLinkedData shared entities dependencies consolidate = .ok v) :
    ∃ parsed order responses,
      dependencies.mapM _parse_declaration = .ok parsed ∧
      toposort (buildDag parsed) = .ok order ∧
      schedule entities (buildDag parsed) shared order [] = .ok responses ∧
      responses.map Prod.fst = order ∧
      (consolidate = true →
        v = ((responses.map Prod.snd).getLast?).getD JsVal.vundef) ∧
      (consolidate = true → ∀ pair, responses.getLast? = some pair →
        order.getLast? = some pair.1 ∧ v = pair.2) ∧
      (consolidate = false → v = JsVal.vlist (responses.map Prod.snd)) := by
  unfold getLinkedData at hok
  rw [if_neg (by simp [hne])] at hok
  cases hp : dependencies.mapM _parse_declaration with
  | error e => rw [hp] at hok; exact absurd hok (by simp)
  | ok parsed =>
    rw [hp] at hok
    dsimp only at hok
    cases ht : toposort (buildDag parsed) with
    | error e => rw [ht] at hok; exact absurd hok (by simp)
    | ok order =>
      rw [ht] at hok
      dsimp only at hok
      cases hs : schedule entities (buildDag parsed) shared order [] with
      | error e => rw [hs] at hok; exact absurd hok (by simp)
      | ok responses =>
        rw [hs] at hok
        dsimp only at hok
        injection hok with hok
        have hkeys : responses.map Prod.fst = order := by
          have h2 := schedule_keys entities (buildDag parsed) shared order [] responses hs
          simpa using h2
        refine ⟨parsed, order, responses, rfl, ht, hs, hkeys, ?_, ?_, ?_⟩
        · intro hc
          rw [hc] at hok
          exact hok.symm
        · intro hc pair hpair
          rw [hc] at hok
          constructor
          · rw [← hkeys, List.getLast?_map, hpair]
            rfl
          · rw [← hok, List.getLast?_map, hpair]
            rfl
        · intro hc
          rw [hc] at hok
          exact hok.symm

theorem C4_consolidate_semantics_witness :
    (["a", "b(a)"] : List String) ≠ [] ∧
    (∃ parsed order responses,
      (["a", "b(a)"] : List String).mapM _parse_declaration = .ok parsed ∧
      toposort (buildDag parsed) = .ok order ∧
      schedule [("a", echoProvider), ("b", echoProvider)] (buildDag parsed) [] order []
        = .ok responses ∧
      responses.map Prod.fst = order ∧
      (true = true →
        JsVal.vobj [("_provider_name", JsVal.vstr "b")]
          = ((responses.map Prod.snd).getLast?).getD JsVal.vundef) ∧
      (true = true → ∀ pair, responses.getLast? = some pair →
        order.getLast? = some pair.1 ∧
          JsVal.vobj [("_provider_name", JsVal.vstr "b")] = pair.2) ∧
      (true = false → JsVal.vobj [("_provider_name", JsVal.vstr "b")]
          = JsVal.vlist (responses.map Prod.snd))) :=
  ⟨by decide, C4_consolidate_semantics (by decide) rfl⟩

/-- C3: whenever the topological sort of a parsed declaration graph succeeds,
the produced order — the order in which `getLinkedData` creates the provider
tasks — places every node strictly after each of its direct and transitive
in-graph prerequisites. -/
theorem C3_order_respects_prerequisites (parsed : List (String × List String))
    {order : List String}
    (hok : toposort (buildDag parsed) = .ok order) {p n : String}
    (h : Relation.TransGen (directPre (buildDag parsed)) p n) :
    p ∈ order ∧ n ∈ order ∧ order.indexOf p < order.indexOf n := by
  have hnd := buildDag_keys_nodup parsed
  unfold toposort at hok
  obtain ⟨hcov, hord⟩ := kahnGo_inv (buildDag parsed) hnd (buildDag parsed).length
    (buildDag parsed) [] order hok (List.Sublist.refl _) (by simp)
    (fun k hk => Or.inr (by
      obtain ⟨e, he, hee⟩ := List.mem_map.mp hk
      exact ⟨e, he, hee⟩))
    (by simp)
  induction h with
  | single hstep =>
    have hnk := hcov _ (directPre_target_key hstep)
    obtain ⟨hp1, hp2⟩ := hord _ hnk p hstep
    exact ⟨hp1, hnk, hp2⟩
  | tail hab hbc ih =>
    obtain ⟨hp1, hb, hlt⟩ := ih
    have hnk := hcov _ (directPre_target_key hbc)
    obtain ⟨hb2, hlt2⟩ := hord _ hnk _ hbc
    exact ⟨hp1, hnk, Nat.lt_trans hlt hlt2⟩

theorem C3_order_respects_prerequisites_witness :
    toposort (buildDag [("a", []), ("b", ["a"]), ("c", ["a", "b"])])
      = .ok ["a", "b", "c"] ∧
    ("a" ∈ (["a", "b", "c"] : List String) ∧ "c" ∈ (["a", "b", "c"] : List String) ∧
      (["a", "b", "c"] : List String).indexOf "a"
        < (["a", "b", "c"] : List String).indexOf "c") :=
  ⟨rfl, C3_order_respects_prerequisites [("a", []), ("b", ["a"]), ("c", ["a", "b"])] rfl
    (Relation.TransGen.single ⟨by decide, by decide⟩)⟩

open LRUCache in
/-- C1 (amended): a failed future is **not** removed from the cache.  On any
well-formed state whose cache holds a settled failed future under the call's
key, `getData` replays that failure from the cache: the call's result is the
cached rejection, `_performRequest` does not run, and the key is still cached
afterwards.  (The spec's claim that failures are evicted so the next call
refetches is refuted by `C1_failed_fetch_stays_cached_counterexample`.) -/
theorem C1_failure_memoized {K V M H : Type} [DecidableEq K]
    (hooks : AdapterHooks K V M H) (st : AdapterState K V M H) {ids : List Nat}
    (hInv : Inv st.cache ids)
    (hen : hooks.enableCache = true) {i : Nat} {e : String}
    (hk : alookup st.cache.store hooks.key = some i)
    (hv : valueAt st.cache.arena i = some (.error e)) :
    (getData hooks st).1 = .error e ∧
    (getData hooks st).2.2 = false ∧
    has (getData hooks st).2.1.cache hooks.key = true := by
  have hhas : st.cache.has hooks.key = true := by
    unfold has
    rw [hk]
    rfl
  obtain ⟨node, hnode, hnv⟩ :
      ∃ node, st.cache.arena[i]? = some node ∧ node.value = Except.error e := by
    unfold valueAt at hv
    cases ha : st.cache.arena[i]? with
    | none => rw [ha] at hv; exact absurd hv (by simp)
    | some nd =>
      rw [ha, Option.map_some'] at hv
      exact ⟨nd, rfl, by injection hv⟩
  unfold getData
  rw [if_pos (show (hooks.enableCache && st.cache.has hooks.key) = true by
    rw [hen, hhas]; rfl)]
  have hget : st.cache.get hooks.nullFuture hooks.emptyMeta hooks.key =
      (Except.error e,
        if st.cache.head = some i then st.cache
        else st.cache.add hooks.key (Except.error e) hooks.emptyMeta) := by
    unfold LRUCache.get
    rw [hk]
    dsimp only
    rw [hnode]
    dsimp only
    by_cases hh : st.cache.head = some i
    · rw [if_pos hh, if_pos hh, hnv]
    · rw [if_neg hh, if_neg hh, hnv]
  rw [hget]
  dsimp only
  refine ⟨rfl, rfl, ?_⟩
  show has (if st.cache.head = some i then st.cache
    else st.cache.add hooks.key (Except.error e) hooks.emptyMeta) hooks.key = true
  by_cases hh : st.cache.head = some i
  · rw [if_pos hh]
    exact hhas
  · rw [if_neg hh]
    by_cases hz : st.cache.max_size = 0
    · have : st.cache.add hooks.key (Except.error e) hooks.emptyMeta = st.cache := by
        unfold add
        rw [if_pos hz]
      rw [this]
      exact hhas
    · obtain ⟨n, _, hstore, _⟩ := add_head_entry hInv
        (Nat.pos_of_ne_zero hz) hooks.key (Except.error e) hooks.emptyMeta
      unfold has
      rw [hstore]
      rfl

open LRUCache in
theorem C1_failure_memoized_witness :
    Inv failSt1.cache [0] ∧ failHooks.enableCache = true ∧
    alookup failSt1.cache.store failHooks.key = some 0 ∧
    valueAt failSt1.cache.arena 0 = some (.error "boom") ∧
    ((getData failHooks failSt1).1 = .error "boom" ∧
     (getData failHooks failSt1).2.2 = false ∧
     has (getData failHooks failSt1).2.1.cache failHooks.key = true) :=
  ⟨show Inv failSt1.cache [0] from
      Inv.ofChecks (by decide) (by decide) (by decide) (by decide) (by decide)
        (by decide) (by decide) (by decide) (by decide) (by decide),
   rfl, rfl, rfl,
   C1_failure_memoized failHooks failSt1
     (show Inv failSt1.cache [0] from
       Inv.ofChecks (by decide) (by decide) (by decide) (by decide) (by decide)
         (by decide) (by decide) (by decide) (by decide) (by decide))
     rfl (show alookup failSt1.cache.store failHooks.key = some 0 from rfl)
     (show valueAt failSt1.cache.arena 0 = some (.error "boom") from rfl)⟩

open LRUCache in
/-- C1 counterexample: a first `getData` call whose fetch fails leaves the
failed future in the cache, and the next call with the same key replays that
failure without invoking `_performRequest` again — the key was never removed. -/
theorem C1_failed_fetch_stays_cached_counterexample :
    (getData failHooks failSt0).1 = .error "boom" ∧
    (getData failHooks failSt0).2.2 = true ∧
    (getData failHooks (getData failHooks failSt0).2.1).1 = .error "boom" ∧
    (getData failHooks (getData failHooks failSt0).2.1).2.2 = false ∧
    has (getData failHooks (getData failHooks failSt0).2.1).2.1.cache 7 = true := by
  refine ⟨rfl, rfl, rfl, rfl, rfl⟩

/-- C2: the value handed to the caller is **not** an independent copy of the
cached value.  Replaying the repository's own test `intelligently clones
non-string cache entries` (adapter tests, `TestCacheQuirks`): the first
`getData(\x7b somevalue: 1 \x7d)` observes `[\x7b a: 2, b: 2, c: 3 \x7d]`, but the
second call — served from the same cache entry, with no new fetch — observes
`[\x7b a: 3, b: 2, c: 3 \x7d]`, because the annotate hook mutated the shared
records through the cached reference.  The test asserts both calls observe
`a = 2`, so the source fails the repository's own expectation. -/
theorem C2_cached_value_not_copied :
    derefRecords (getData quirksHooks quirksSt0).2.1.heap
        (getData quirksHooks quirksSt0).1
      = .ok [[("a", 2), ("b", 2), ("c", 3)]] ∧
    derefRecords (getData quirksHooks (getData quirksHooks quirksSt0).2.1).2.1.heap
        (getData quirksHooks (getData quirksHooks quirksSt0).2.1).1
      = .ok [[("a", 3), ("b", 2), ("c", 3)]] ∧
    (getData quirksHooks (getData quirksHooks quirksSt0).2.1).2.2 = false ∧
    (getData quirksHooks (getData quirksHooks quirksSt0).2.1).1
      = (getData quirksHooks quirksSt0).1 :=
  ⟨rfl, rfl, rfl, rfl⟩

end Undercomplicate
